import Mathlib

/-!
# Verification of the bc-symbols-mcp cache / index core

A shallow embedding of the lazy-materialization cache, the partitioned
memory-optimized cache, the multi-index object search engine, the streaming
symbol parser and the progressive loader of the bc-symbols-mcp repository,
together with proofs and refutations of the frozen specification claims.

Modelling conventions, used throughout:

* JavaScript `Map` objects and plain-object dictionaries are modelled as
  insertion-ordered association lists with string keys (`JSMap`); `Map.set`
  replaces in place, `Map.delete` removes the entry.  JavaScript `Set`s are
  insertion-ordered duplicate-free lists (`JSSet`).
* JavaScript strings are Lean `String`s; `toLowerCase`, `trim` and
  `split(' ')` are re-implemented character-wise (`jsToLower`, `jsTrim`,
  `jsSplitSpace`) so that they compute by kernel reduction; `localeCompare`
  is modelled as lexicographic comparison of the character data.
* `Date.now()` is an explicit `now : Nat` parameter of every operation that
  reads the clock.
* JSON values are the inductive type `JVal`; `JSON.parse` of a buffer is
  modelled by an `Option JVal` input (`none` = malformed document).
* Serialized-size estimation (`JSON.stringify(x).length`, `Buffer.length`)
  is modelled by explicit size-estimator function parameters, except for the
  symbol buffer whose byte length is carried as a `Nat` field.
-/

namespace BCS

/-! ## JavaScript-semantics helpers -/

/-- ASCII lower-casing of a string, modelling `String.prototype.toLowerCase`
(character-wise, as used by the source on identifier data). -/
def jsToLower (s : String) : String :=
  String.mk (s.data.map Char.toLower)

/-- Whitespace test used by `jsTrim`. -/
def isSpaceChar (c : Char) : Bool :=
  c = ' ' || c = '\t' || c = '\n' || c = '\r'

/-- `String.prototype.trim`: drop whitespace from both ends. -/
def jsTrim (s : String) : String :=
  String.mk (((s.data.dropWhile isSpaceChar).reverse.dropWhile isSpaceChar).reverse)

/-- Auxiliary splitter: split a character list at every occurrence of `sep`,
keeping empty segments, like JavaScript `String.prototype.split(sep)`. -/
def jsSplitAux (sep : Char) : List Char → List Char → List String
  | [], acc => [String.mk acc.reverse]
  | c :: cs, acc =>
    if c = sep then String.mk acc.reverse :: jsSplitAux sep cs []
    else jsSplitAux sep cs (c :: acc)

/-- JavaScript `split(sep)` for a single-character separator. -/
def jsSplitChar (sep : Char) (s : String) : List String :=
  jsSplitAux sep s.data []

/-- JavaScript `split(' ')`. -/
def jsSplitSpace (s : String) : List String :=
  jsSplitChar ' ' s

/-- Auxiliary for `jsDedup`: keep elements not seen before. -/
def jsDedupAux (seen : List String) : List String → List String
  | [] => []
  | x :: xs => if x ∈ seen then jsDedupAux seen xs else x :: jsDedupAux (seen ++ [x]) xs

/-- First-occurrence duplicate removal, modelling `[...new Set(arr)]`. -/
def jsDedup (l : List String) : List String :=
  jsDedupAux [] l

/-- JavaScript `Map` / plain-object dictionary: insertion-ordered association
list with string keys. -/
abbrev JSMap (α : Type) := List (String × α)

/-- `Map.get` / property read: first entry with the given key. -/
def mapGet {α : Type} (m : JSMap α) (k : String) : Option α :=
  match m with
  | [] => none
  | (k', v) :: rest => if k' = k then some v else mapGet rest k

/-- `Map.set` / property write: replace in place, else append. -/
def mapSet {α : Type} (m : JSMap α) (k : String) (v : α) : JSMap α :=
  match m with
  | [] => [(k, v)]
  | (k', v') :: rest => if k' = k then (k, v) :: rest else (k', v') :: mapSet rest k v

/-- `Map.delete` / `delete obj[k]`: remove the entry with the given key. -/
def mapDelete {α : Type} (m : JSMap α) (k : String) : JSMap α :=
  match m with
  | [] => []
  | (k', v') :: rest => if k' = k then rest else (k', v') :: mapDelete rest k

/-- The keys of a map, in insertion order (`Object.keys`, `map.keys()`). -/
def mapKeys {α : Type} (m : JSMap α) : List String :=
  m.map Prod.fst

/-- JavaScript `Set` of strings: insertion-ordered, duplicate-free list. -/
abbrev JSSet := List String

/-- `Set.add`: append if not yet present. -/
def setAdd (s : JSSet) (v : String) : JSSet :=
  if v ∈ s then s else s ++ [v]

/-- `Set.delete`. -/
def setDelete (s : JSSet) (v : String) : JSSet :=
  s.erase v

/-- `Math.round(bytes / (1024*1024) * 100)`: the memory-usage figures of the
source are megabytes with two decimals; we represent them exactly as
centi-megabytes computed from a byte count. -/
def roundCentiMB (bytes : Nat) : Nat :=
  (bytes * 100 + 524288) / 1048576

/-- `Math.round(a / b)` on naturals (round half up), used for ratio figures. -/
def jsRoundDiv (a b : Nat) : Nat :=
  (2 * a + b) / (2 * b)

/-! ## JSON values

`JVal` models the JavaScript values flowing through the cache: the result of
`JSON.parse`, the materialized objects, and the object-cache payloads.
`undefined` is folded into `null` (both are skipped/falsy in every source
path modelled here). -/

inductive JVal where
  | null
  | bool (b : Bool)
  | num (n : Int)
  | str (s : String)
  | arr (elems : List JVal)
  | obj (fields : List (String × JVal))

/-- JavaScript truthiness of a `JVal` (objects and arrays are truthy). -/
def jsTruthy : JVal → Bool
  | .null => false
  | .bool b => b
  | .num n => !(n = 0)
  | .str s => !(s = "")
  | .arr _ => true
  | .obj _ => true

/-- Field read `v.k` on a JSON value (`none` when not an object or absent). -/
def jvGet (v : JVal) (k : String) : Option JVal :=
  match v with
  | .obj fs => mapGet fs k
  | _ => none

/-! ## ObjectIndex (src/processors/app-extractor.ts, class `ObjectIndex`)

The multi-index search engine: a primary map from object keys to index
entries plus five secondary inverted indices (type, lower-cased name, owning
app, keyword, dependency). -/

/-- The fields of `BCApp` read by `ObjectIndex.indexApp` / `indexObject`. -/
structure BCAppInfo where
  id : String
  filePath : String
deriving DecidableEq, Repr

/-- The metadata record for one object, as produced by the object loader and
consumed by `ObjectIndex.indexObject` (field `nspace` models the source's
`namespace`, a reserved word in Lean; the empty string models a missing
namespace, so that `metadata.namespace || 'Root'` becomes a test against
`""`). -/
structure ObjectMetadataInput where
  objectId : Int
  name : String
  nspace : String
  properties : List (String × String)
deriving DecidableEq, Repr

/-- `ObjectIndexEntry` of the source (field `nspace` models `namespace`). -/
structure ObjectIndexEntry where
  appId : String
  objectType : String
  objectId : Int
  objectName : String
  nspace : String
  filePath : String
  lastModified : Nat
  properties : JSMap String
  dependencies : List String
  keywords : List String
deriving DecidableEq, Repr

/-- `SearchFilter` of the source: absent (`none`) dimensions are skipped. -/
structure SearchFilter where
  appIds : Option (List String) := none
  objectTypes : Option (List String) := none
  objectNames : Option (List String) := none
  objectIds : Option (List Int) := none
  namespaces : Option (List String) := none
  keywords : Option (List String) := none
  properties : Option (JSMap String) := none
  minId : Option Int := none
  maxId : Option Int := none
deriving DecidableEq, Repr

/-- The `ObjectIndex` state: primary map plus five secondary indices. -/
structure ObjectIndex where
  index : JSMap ObjectIndexEntry
  typeIndex : JSMap JSSet
  nameIndex : JSMap JSSet
  appIndex : JSMap JSSet
  keywordIndex : JSMap JSSet
  dependencyIndex : JSMap JSSet
deriving DecidableEq, Repr

/-- The fresh (and cleared) index. -/
def ObjectIndex.empty : ObjectIndex :=
  ⟨[], [], [], [], [], []⟩

/-- `ObjectIndex.clear`. -/
def ObjectIndex.clear (_s : ObjectIndex) : ObjectIndex :=
  ObjectIndex.empty

/-- `createObjectKey`: template-literal concatenation with `:` separators. -/
def createObjectKey (appId objectType : String) (objectId : Int) (objectName : String) : String :=
  appId ++ ":" ++ objectType ++ ":" ++ toString objectId ++ ":" ++ objectName

/-- `replace(/([A-Z])/g, ' $1')`: insert a space before every ASCII capital. -/
def insertSpacesBeforeUpper (s : String) : String :=
  String.mk (s.data.foldr (fun c acc => if c.isUpper then ' ' :: c :: acc else c :: acc) [])

/-- `extractKeywords`: the object type, the camel-case fragments of the name
(lower-cased), and the whole lower-cased name, first occurrences kept. -/
def extractKeywords (objectName objectType : String) : List String :=
  let words := jsSplitSpace (jsTrim (insertSpacesBeforeUpper objectName))
  jsDedup (objectType :: (words.map jsToLower ++ [jsToLower objectName]))

/-- `extractProperties`: build the property dictionary, skipping entries with
a falsy (here: empty) name or value, later writes overwriting earlier ones. -/
def extractProperties (props : List (String × String)) : JSMap String :=
  props.foldl (fun m p => if !(p.1 = "") && !(p.2 = "") then mapSet m p.1 p.2 else m) []

/-- `extractDependencies` of the source returns the empty list (dependency
analysis is not implemented). -/
def extractDependencies (_app : BCAppInfo) (_objectType : String)
    (_metadata : ObjectMetadataInput) : List String :=
  []

/-- `addToIndex`: create the bucket if needed, then `Set.add` the value. -/
def ObjectIndex.addToIndex (idx : JSMap JSSet) (key value : String) : JSMap JSSet :=
  mapSet idx key (setAdd ((mapGet idx key).getD []) value)

/-- `removeFromIndex`: `Set.delete` the value; drop the bucket if it became
empty. -/
def ObjectIndex.removeFromIndex (idx : JSMap JSSet) (key value : String) : JSMap JSSet :=
  match mapGet idx key with
  | none => idx
  | some s =>
    let s2 := setDelete s value
    if s2.isEmpty then mapDelete idx key else mapSet idx key s2

/-- `indexObject`: build the entry, store it in the primary map, and insert
its key into all applicable secondary indices. -/
def ObjectIndex.indexObject (s : ObjectIndex) (app : BCAppInfo) (objectType : String)
    (metadata : ObjectMetadataInput) (now : Nat) : ObjectIndex :=
  let objectKey := createObjectKey app.id objectType metadata.objectId metadata.name
  let keywords := extractKeywords metadata.name objectType
  let dependencies := extractDependencies app objectType metadata
  let entry : ObjectIndexEntry :=
    { appId := app.id
      objectType := objectType
      objectId := metadata.objectId
      objectName := metadata.name
      nspace := if metadata.nspace = "" then "Root" else metadata.nspace
      filePath := app.filePath
      lastModified := now
      properties := extractProperties metadata.properties
      dependencies := dependencies
      keywords := keywords }
  { index := mapSet s.index objectKey entry
    typeIndex := ObjectIndex.addToIndex s.typeIndex objectType objectKey
    nameIndex := ObjectIndex.addToIndex s.nameIndex (jsToLower metadata.name) objectKey
    appIndex := ObjectIndex.addToIndex s.appIndex app.id objectKey
    keywordIndex :=
      keywords.foldl (fun idx kw => ObjectIndex.addToIndex idx (jsToLower kw) objectKey)
        s.keywordIndex
    dependencyIndex :=
      dependencies.foldl (fun idx d => ObjectIndex.addToIndex idx d objectKey)
        s.dependencyIndex }

/-- The fixed object-type list iterated by `indexApp`. -/
def bcObjectTypes : List String :=
  ["table", "codeunit", "page", "pageextension", "report", "enum"]

/-- `indexApp`: index the loader-provided metadata of every object type.  The
object loader is modelled as a function from file path and object type to the
metadata list it returns. -/
def ObjectIndex.indexApp (s : ObjectIndex) (app : BCAppInfo)
    (loader : String → String → List ObjectMetadataInput) (now : Nat) : ObjectIndex :=
  bcObjectTypes.foldl
    (fun s objectType =>
      (loader app.filePath objectType).foldl
        (fun s m => s.indexObject app objectType m now) s)
    s

/-- `intersectSets`: keep the members of the first set present in the second
(first-set iteration order preserved). -/
def intersectSets (s1 s2 : JSSet) : JSSet :=
  s1.filter (fun k => s2.contains k)

/-- Union of the buckets of the given keys (missing buckets skipped),
modelling the `for … .forEach(add)` accumulation into a match `Set`. -/
def unionBuckets (idx : JSMap JSSet) (ks : List String) : JSSet :=
  ks.foldl (fun acc k => ((mapGet idx k).getD []).foldl setAdd acc) []

/-- The scalar predicates of `search`, applied to each candidate entry after
the index-backed dimensions (explicit id list, id range, namespaces,
property equality). -/
def scalarFilters (filter : SearchFilter) (entry : ObjectIndexEntry) : Bool :=
  (match filter.objectIds with
   | some l => if l.isEmpty then true else l.contains entry.objectId
   | none => true) &&
  (match filter.minId with
   | some m => !(entry.objectId < m)
   | none => true) &&
  (match filter.maxId with
   | some m => !(m < entry.objectId)
   | none => true) &&
  (match filter.namespaces with
   | some l => if l.isEmpty then true else l.contains entry.nspace
   | none => true) &&
  (match filter.properties with
   | some props => props.all (fun p => mapGet entry.properties p.1 = some p.2)
   | none => true)

/-- The result ordering of `search`: by object type, then id, then name
(`localeCompare` modelled as lexicographic string order). -/
def searchLE (a b : ObjectIndexEntry) : Prop :=
  a.objectType < b.objectType ∨
    (a.objectType = b.objectType ∧
      (a.objectId < b.objectId ∨ (a.objectId = b.objectId ∧ a.objectName ≤ b.objectName)))

instance : DecidableRel searchLE := fun a b => by
  unfold searchLE
  infer_instance

/-- One index-backed dimension block of `search`: skip when the dimension is
absent or its array is empty, else intersect the candidates with the union of
the matching buckets. -/
def applyDim {β : Type} (cands : JSSet) (dim : Option (List β))
    (matchSet : List β → JSSet) : JSSet :=
  match dim with
  | some l => if l.isEmpty then cands else intersectSets cands (matchSet l)
  | none => cands

/-- `ObjectIndex.search`: start from all primary keys, intersect in the
matching key set of each present non-empty index-backed dimension, then apply
the scalar predicates and sort (the source's `Array.prototype.sort` is
modelled as a sort producing an output ordered by the comparator). -/
def ObjectIndex.search (s : ObjectIndex) (filter : SearchFilter) : List ObjectIndexEntry :=
  let candidates := mapKeys s.index
  let candidates := applyDim candidates filter.appIds (fun l => unionBuckets s.appIndex l)
  let candidates := applyDim candidates filter.objectTypes (fun l => unionBuckets s.typeIndex l)
  let candidates :=
    applyDim candidates filter.objectNames (fun l => unionBuckets s.nameIndex (l.map jsToLower))
  let candidates :=
    applyDim candidates filter.keywords (fun l => unionBuckets s.keywordIndex (l.map jsToLower))
  let results := candidates.filterMap (fun key =>
    match mapGet s.index key with
    | none => none
    | some entry => if scalarFilters filter entry then some entry else none)
  List.insertionSort searchLE results

/-- One removal step of `removeApp`: drop the entry with the given key from
the primary map and from every secondary-index bucket it was inserted in. -/
def ObjectIndex.removeOne (s : ObjectIndex) (key : String) : ObjectIndex :=
  match mapGet s.index key with
  | none => s
  | some entry =>
    { index := mapDelete s.index key
      typeIndex := ObjectIndex.removeFromIndex s.typeIndex entry.objectType key
      nameIndex := ObjectIndex.removeFromIndex s.nameIndex (jsToLower entry.objectName) key
      appIndex := ObjectIndex.removeFromIndex s.appIndex entry.appId key
      keywordIndex :=
        entry.keywords.foldl (fun idx kw => ObjectIndex.removeFromIndex idx (jsToLower kw) key)
          s.keywordIndex
      dependencyIndex :=
        entry.dependencies.foldl (fun idx d => ObjectIndex.removeFromIndex idx d key)
          s.dependencyIndex }

/-- `removeApp`: iterate the app's bucket, removing each owned key from the
primary map and all five secondary indices. -/
def ObjectIndex.removeApp (s : ObjectIndex) (appId : String) : ObjectIndex :=
  match mapGet s.appIndex appId with
  | none => s
  | some objectKeys => objectKeys.foldl ObjectIndex.removeOne s

/-! Sanity checks of the ObjectIndex embedding on concrete data. -/

example : extractKeywords "CustomerCard" "table" = ["table", "customer", "card", "customercard"] := by
  decide

example : createObjectKey "a" "table" 1 "x" = "a:table:1:x" := by decide

/-! ## StreamingSymbolParser (src/processors/streaming-parser.ts)

Builds a lightweight metadata index over the symbol document and materializes
individual objects on demand.  The raw buffer is modelled by its parsed JSON
content (`Option JVal`, `none` = malformed) and, where only its byte length
matters, by a `Nat`. -/

/-- `ObjectMetadata` of the streaming parser (`nspace` models `namespace`). -/
structure SPObjectMetadata where
  objectType : String
  objectId : Int
  name : String
  nspace : String
  offset : Nat
  size : Nat
  loaded : Bool
deriving DecidableEq, Repr

/-- The parser state (`StreamingSymbolIndex` of the source). -/
structure StreamingSymbolParser where
  runtimeVersion : String
  objectIndex : JSMap SPObjectMetadata
  totalObjects : Nat
  loadedObjects : Nat
deriving DecidableEq, Repr

/-- The constructor state of `StreamingSymbolParser`. -/
def StreamingSymbolParser.init : StreamingSymbolParser :=
  { runtimeVersion := "", objectIndex := [], totalObjects := 0, loadedObjects := 0 }

/-- The top-level object-array keys scanned by `buildObjectIndex`. -/
def symbolArrayKeys : List String :=
  ["Tables", "Codeunits", "Pages", "PageExtensions", "Reports", "XmlPorts", "Queries",
   "EnumTypes"]

/-- `getObjectTypeFromPath` restricted to the keys above (`typeMap` lookup,
default `unknown`). -/
def getObjectTypeFromKey (k : String) : String :=
  if k = "Tables" then "table"
  else if k = "Codeunits" then "codeunit"
  else if k = "Pages" then "page"
  else if k = "PageExtensions" then "pageextension"
  else if k = "Reports" then "report"
  else if k = "XmlPorts" then "xmlport"
  else if k = "Queries" then "query"
  else if k = "EnumTypes" then "enum"
  else "unknown"

/-- `createObjectMetadata`: `null` for non-object values; `Id` and `Name`
default to `0` / `""` (the source reads `value.Id || 0`, `value.Name || ''`;
the model assumes numeric ids and string names, as in symbol documents).
Offset and size are always recorded as `0` (placeholder in the source). -/
def createSPObjectMetadata (value : JVal) (objectType nspace : String) :
    Option SPObjectMetadata :=
  match value with
  | .obj _ | .arr _ =>
    some { objectType := objectType
           objectId := (match jvGet value "Id" with | some (.num n) => n | _ => 0)
           name := (match jvGet value "Name" with | some (.str s) => s | _ => "")
           nspace := nspace
           offset := 0
           size := 0
           loaded := false }
  | _ => none

/-- The `objectType:objectId:name` key of the parser's object index. -/
def mkSPIndexKey (objectType : String) (objectId : Int) (objectName : String) : String :=
  objectType ++ ":" ++ toString objectId ++ ":" ++ objectName

/-- `buildObjectIndex`: on a parsed document, record one metadata entry per
element of each known object array; on a malformed document (the `catch`
branch), fall back to an empty index. -/
def StreamingSymbolParser.buildObjectIndex (p : StreamingSymbolParser)
    (parsed : Option JVal) : StreamingSymbolParser :=
  match parsed with
  | none => { p with runtimeVersion := "", totalObjects := 0 }
  | some data =>
    let p :=
      { p with
        runtimeVersion := (match jvGet data "RuntimeVersion" with | some (.str s) => s | _ => "") }
    symbolArrayKeys.foldl
      (fun p arrayKey =>
        match jvGet data arrayKey with
        | some (.arr objs) =>
          let objectType := getObjectTypeFromKey arrayKey
          objs.foldl
            (fun p obj =>
              match createSPObjectMetadata obj objectType "Root" with
              | some metadata =>
                { p with
                  objectIndex :=
                    mapSet p.objectIndex (mkSPIndexKey objectType metadata.objectId metadata.name)
                      metadata
                  totalObjects := p.totalObjects + 1 }
              | none => p)
            p
        | _ => p)
      p

/-- `parseSymbolsProgressive`: build the index over the (parsed) buffer. -/
def StreamingSymbolParser.parseSymbolsProgressive (p : StreamingSymbolParser)
    (parsed : Option JVal) : StreamingSymbolParser :=
  p.buildObjectIndex parsed

/-- `parseObjectAtOffset`: placeholder in the source — always the empty
object. -/
def parseObjectAtOffset (_offset _size : Nat) : JVal :=
  .obj []

/-- The metadata record viewed as the JavaScript object the source returns
from `loadObject` when the entry is already loaded. -/
def metadataToJVal (m : SPObjectMetadata) : JVal :=
  .obj [("objectType", .str m.objectType), ("objectId", .num m.objectId),
        ("name", .str m.name), ("namespace", .str m.nspace),
        ("offset", .num (m.offset : Int)), ("size", .num (m.size : Int)),
        ("loaded", .bool m.loaded)]

/-- `StreamingSymbolParser.loadObject`: throw when the key is unknown; return
the metadata record when already loaded; otherwise derive the object (the
placeholder empty object), mark it loaded and bump the derivation counter. -/
def StreamingSymbolParser.loadObject (p : StreamingSymbolParser) (objectType : String)
    (objectId : Int) (objectName : String) : Except String (JVal × StreamingSymbolParser) :=
  let indexKey := mkSPIndexKey objectType objectId objectName
  match mapGet p.objectIndex indexKey with
  | none => .error ("Object not found: " ++ indexKey)
  | some metadata =>
    if metadata.loaded then .ok (metadataToJVal metadata, p)
    else
      let objectData := parseObjectAtOffset metadata.offset metadata.size
      let p2 :=
        { p with
          objectIndex := mapSet p.objectIndex indexKey { metadata with loaded := true }
          loadedObjects := p.loadedObjects + 1 }
      .ok (objectData, p2)

/-- `StreamingSymbolParser.loadObjectsByType`: load every index entry of the
given type, in index order (an exception from `loadObject` propagates). -/
def StreamingSymbolParser.loadObjectsByType (p : StreamingSymbolParser)
    (objectType : String) : Except String (List JVal × StreamingSymbolParser) :=
  p.objectIndex.foldl
    (fun acc kv =>
      match acc with
      | .error e => .error e
      | .ok (objects, p) =>
        if kv.2.objectType = objectType then
          match p.loadObject kv.2.objectType kv.2.objectId kv.2.name with
          | .ok (v, p2) => .ok (objects ++ [v], p2)
          | .error e => .error e
        else .ok (objects, p))
    (.ok ([], p))

/-- The `getLoadingStats` record (percentage in exact centi-percent). -/
structure LoadingStatsM where
  total : Nat
  loaded : Nat
  percentageCenti : Nat
deriving DecidableEq, Repr

/-- `getLoadingStats`. -/
def StreamingSymbolParser.getLoadingStats (p : StreamingSymbolParser) : LoadingStatsM :=
  { total := p.totalObjects
    loaded := p.loadedObjects
    percentageCenti :=
      if p.totalObjects > 0 then jsRoundDiv (p.loadedObjects * 10000) p.totalObjects else 0 }

/-! ## LazyMemoryCache (src/cache/lazy-cache.ts, class `LazyMemoryCache`) -/

/-- The fields of `BCApp` that the cache layers read: identity, name, content
hash, and the symbol reference abbreviated to its runtime version and its
namespace count (all the memory-optimized cache does with `symbols` is reset
the namespace list). -/
structure BCAppM where
  id : String
  name : String
  fileHash : String
  symbolsRuntimeVersion : String
  symbolsNamespaces : Nat
deriving DecidableEq, Repr

/-- `LazyAppEntry`: app metadata, retained symbol buffer (parsed content plus
byte length), per-app parser, per-app materialized-object cache and access
bookkeeping. -/
structure LazyAppEntry where
  appData : BCAppM
  symbolsLen : Nat
  sparser : StreamingSymbolParser
  objectCache : JSMap JVal
  timestamp : Nat
  fileHash : String
  accessCount : Nat
  lastAccessed : Nat

/-- The `LazyMemoryCache` state (`hits`/`misses` model `accessLog`). -/
structure LazyMemoryCache where
  cache : JSMap LazyAppEntry
  maxAge : Nat
  maxMemoryMB : Nat
  hits : Nat
  misses : Nat

/-- `isEntryValid`: not expired and hash matches. -/
def isEntryValid (maxAge now : Nat) (entry : LazyAppEntry) (currentFileHash : String) : Bool :=
  !(now - entry.timestamp > maxAge) && entry.fileHash = currentFileHash

/-- `calculateMemoryUsage` in exact centi-megabytes.  The byte total per
entry is the symbol-buffer length plus the serialized sizes of the app data
and of the object cache; the two `JSON.stringify(...).length` figures are
modelled by the explicit estimator parameters `appSize` and `cacheSize`. -/
def LazyMemoryCache.memUsageCentiMB (appSize : BCAppM → Nat) (cacheSize : JSMap JVal → Nat)
    (s : LazyMemoryCache) : Nat :=
  roundCentiMB
    (s.cache.foldl
      (fun acc kv => acc + kv.2.symbolsLen + appSize kv.2.appData + cacheSize kv.2.objectCache)
      0)

/-- The victim scan of `enforceMemoryLimits`: the first entry whose
`lastAccessed` is strictly below the running minimum, initialised to
`Date.now()`. -/
def findOldest (now : Nat) (entries : JSMap LazyAppEntry) : Option String :=
  (entries.foldl
    (fun acc kv => if kv.2.lastAccessed < acc.2 then (some kv.1, kv.2.lastAccessed) else acc)
    ((none : Option String), now)).1

/-- The eviction loop of `enforceMemoryLimits`, with explicit fuel (the loop
deletes one entry per iteration, so `cache.length + 1` units of fuel make the
fuelled loop agree with the source's unbounded `while`). -/
def LazyMemoryCache.enforceLoop (appSize : BCAppM → Nat) (cacheSize : JSMap JVal → Nat)
    (now : Nat) : Nat → LazyMemoryCache → LazyMemoryCache
  | 0, s => s
  | fuel + 1, s =>
    if LazyMemoryCache.memUsageCentiMB appSize cacheSize s > 100 * s.maxMemoryMB then
      match findOldest now s.cache with
      | some fp =>
        LazyMemoryCache.enforceLoop appSize cacheSize now fuel
          { s with cache := mapDelete s.cache fp }
      | none => s
    else s

/-- `enforceMemoryLimits`: LRU-evict one entry at a time, recomputing the
footprint each iteration, until under budget or no victim qualifies. -/
def LazyMemoryCache.enforceMemoryLimits (appSize : BCAppM → Nat)
    (cacheSize : JSMap JVal → Nat) (now : Nat) (s : LazyMemoryCache) : LazyMemoryCache :=
  LazyMemoryCache.enforceLoop appSize cacheSize now (s.cache.length + 1) s

/-- `setLazy`: parse the symbol buffer, store the entry, then enforce the
memory ceiling. -/
def LazyMemoryCache.setLazy (appSize : BCAppM → Nat) (cacheSize : JSMap JVal → Nat)
    (s : LazyMemoryCache) (filePath : String) (app : BCAppM) (symbols : Option JVal)
    (symbolsLen : Nat) (now : Nat) : LazyMemoryCache :=
  let sp := StreamingSymbolParser.init.parseSymbolsProgressive symbols
  let s2 :=
    { s with
      cache :=
        mapSet s.cache filePath
          { appData := app, symbolsLen := symbolsLen, sparser := sp, objectCache := []
            timestamp := now, fileHash := app.fileHash, accessCount := 0, lastAccessed := now } }
  LazyMemoryCache.enforceMemoryLimits appSize cacheSize now s2

/-- `getAppMetadata`: absent when unknown, expired or hash-mismatching (the
entry is NOT removed in those cases); on success, bump the access counters. -/
def LazyMemoryCache.getAppMetadata (s : LazyMemoryCache) (filePath currentFileHash : String)
    (now : Nat) : Option BCAppM × LazyMemoryCache :=
  match mapGet s.cache filePath with
  | none => (none, s)
  | some entry =>
    if isEntryValid s.maxAge now entry currentFileHash then
      let e2 := { entry with accessCount := entry.accessCount + 1, lastAccessed := now }
      (some e2.appData, { s with cache := mapSet s.cache filePath e2 })
    else (none, s)

/-- The derive-and-cache path of `loadObject` (shared by the two
not-yet-cached branches of the truthiness test): try the parser, cache and
count a miss on success, catch the exception and count a miss on failure. -/
def LazyMemoryCache.loadObjectDerive (s : LazyMemoryCache) (filePath : String)
    (entry : LazyAppEntry) (cacheKey objectType : String) (objectId : Int)
    (objectName : String) (now : Nat) : Option JVal × LazyMemoryCache :=
  match entry.sparser.loadObject objectType objectId objectName with
  | .ok (v, p2) =>
    let e2 :=
      { entry with
        sparser := p2
        objectCache := mapSet entry.objectCache cacheKey v
        lastAccessed := now }
    (some v, { s with cache := mapSet s.cache filePath e2, misses := s.misses + 1 })
  | .error _ => (none, { s with misses := s.misses + 1 })

/-- `LazyMemoryCache.loadObject`: absent entry or invalid entry counts a
miss; a truthy cached value counts a hit and is returned; otherwise the
object is derived via the parser, cached and counted as a miss (also on a
derivation error, which is caught and reported as absence). -/
def LazyMemoryCache.loadObject (s : LazyMemoryCache)
    (filePath currentFileHash objectType : String) (objectId : Int) (objectName : String)
    (now : Nat) : Option JVal × LazyMemoryCache :=
  match mapGet s.cache filePath with
  | none => (none, { s with misses := s.misses + 1 })
  | some entry =>
    if isEntryValid s.maxAge now entry currentFileHash then
      let cacheKey := mkSPIndexKey objectType objectId objectName
      match mapGet entry.objectCache cacheKey with
      | some v =>
        if jsTruthy v then
          let e2 := { entry with lastAccessed := now }
          (some v, { s with cache := mapSet s.cache filePath e2, hits := s.hits + 1 })
        else
          LazyMemoryCache.loadObjectDerive s filePath entry cacheKey objectType objectId
            objectName now
      | none =>
        LazyMemoryCache.loadObjectDerive s filePath entry cacheKey objectType objectId
          objectName now
    else (none, { s with misses := s.misses + 1 })

/-- The derive-and-cache path of `loadObjectsByType`: a parser exception
propagates (the source has no `try` here). -/
def LazyMemoryCache.loadObjectsDerive (s : LazyMemoryCache) (filePath : String)
    (entry : LazyAppEntry) (cacheKey objectType : String) (now : Nat) :
    Except String (JVal × LazyMemoryCache) :=
  match entry.sparser.loadObjectsByType objectType with
  | .error e => .error e
  | .ok (objects, p2) =>
    let e2 :=
      { entry with
        sparser := p2
        objectCache := mapSet entry.objectCache cacheKey (.arr objects)
        lastAccessed := now }
    .ok (.arr objects, { s with cache := mapSet s.cache filePath e2, misses := s.misses + 1 })

/-- `LazyMemoryCache.loadObjectsByType`: like `loadObject` but for the
`objectType:all` cache key; the result array is stored as a `JVal.arr`. -/
def LazyMemoryCache.loadObjectsByType (s : LazyMemoryCache)
    (filePath currentFileHash objectType : String) (now : Nat) :
    Except String (JVal × LazyMemoryCache) :=
  match mapGet s.cache filePath with
  | none => .ok (.arr [], { s with misses := s.misses + 1 })
  | some entry =>
    if isEntryValid s.maxAge now entry currentFileHash then
      let cacheKey := objectType ++ ":all"
      match mapGet entry.objectCache cacheKey with
      | some v =>
        if jsTruthy v then
          let e2 := { entry with lastAccessed := now }
          .ok (v, { s with cache := mapSet s.cache filePath e2, hits := s.hits + 1 })
        else
          LazyMemoryCache.loadObjectsDerive s filePath entry cacheKey objectType now
      | none => LazyMemoryCache.loadObjectsDerive s filePath entry cacheKey objectType now
    else .ok (.arr [], { s with misses := s.misses + 1 })

/-- The `getCacheStats` record (memory in centi-MB, hit rate in exact
centi-percent). -/
structure CacheStatsM where
  totalApps : Nat
  totalObjects : Nat
  loadedObjects : Nat
  memUsageCentiMB : Nat
  cacheHitRateCenti : Nat
deriving DecidableEq, Repr

/-- `getCacheStats`. -/
def LazyMemoryCache.getCacheStats (appSize : BCAppM → Nat) (cacheSize : JSMap JVal → Nat)
    (s : LazyMemoryCache) : CacheStatsM :=
  { totalApps := s.cache.length
    totalObjects := s.cache.foldl (fun acc kv => acc + kv.2.objectCache.length) 0
    loadedObjects := s.cache.foldl (fun acc kv => acc + kv.2.sparser.getLoadingStats.loaded) 0
    memUsageCentiMB := LazyMemoryCache.memUsageCentiMB appSize cacheSize s
    cacheHitRateCenti :=
      if s.hits + s.misses > 0 then jsRoundDiv (s.hits * 10000) (s.hits + s.misses) else 0 }

/-! ## MemoryCache (`src/cache/memory-cache.ts`, provided as an unnamed
source file) -/

/-- A `CacheEntry` of the plain memory cache. -/
structure MCEntry where
  data : BCAppM
  timestamp : Nat
  fileHash : String
deriving DecidableEq, Repr

/-- The plain `MemoryCache`. -/
structure MemoryCache where
  cache : JSMap MCEntry
  maxAge : Nat
deriving DecidableEq, Repr

/-- `MemoryCache.set`. -/
def MemoryCache.set (c : MemoryCache) (filePath : String) (app : BCAppM) (now : Nat) :
    MemoryCache :=
  { c with cache := mapSet c.cache filePath { data := app, timestamp := now, fileHash := app.fileHash } }

/-- `MemoryCache.get`: absent when unknown; on TTL expiry or hash mismatch
the stale entry is deleted and absence returned; otherwise the app data. -/
def MemoryCache.get (c : MemoryCache) (filePath currentFileHash : String) (now : Nat) :
    Option BCAppM × MemoryCache :=
  match mapGet c.cache filePath with
  | none => (none, c)
  | some entry =>
    if now - entry.timestamp > c.maxAge then
      (none, { c with cache := mapDelete c.cache filePath })
    else if !(entry.fileHash = currentFileHash) then
      (none, { c with cache := mapDelete c.cache filePath })
    else (some entry.data, c)

/-! ## MemoryOptimizedCache (src/cache/lazy-cache.ts, class
`MemoryOptimizedCache`)

The partitioned cache: app metadata separate from object payloads, objects
split into fixed per-type partitions, optional compression, and three
eviction strategies.  `JSON.stringify(...).length` size estimation is again
modelled by an explicit estimator parameter `dataSize`. -/

/-- A stored object record: a JavaScript object, as a field list. -/
abbrev JObj := List (String × JVal)

/-- A stored partition payload: either the plain optimized object list or
the compression wrapper.  The source's wrapper holds `JSON.stringify` of the
payload; since stringify/parse round-trips JSON data, the wrapper is
modelled as carrying the payload itself. -/
inductive CacheData where
  | plain (objs : List JObj)
  | compressed (objs : List JObj)

/-- `compressData`. -/
def compressData (data : List JObj) : CacheData :=
  .compressed data

/-- `decompressData` (`JSON.parse` of the stored string; pass-through for
non-wrapped data). -/
def decompressData : CacheData → List JObj
  | .compressed d => d
  | .plain d => d

/-- `isCompressed`. -/
def isCompressed : CacheData → Bool
  | .compressed _ => true
  | .plain _ => false

/-- The payload as the source would return it without decompression (for
plain data this is the stored array; the wrapper case cannot be produced by
the operations modelled here when it is reached, see `getObjects`). -/
def CacheData.payload : CacheData → List JObj
  | .plain d => d
  | .compressed d => d

/-- `optimizeObjectsData` on one object: drop `null`/`undefined` fields and
empty arrays, recursively optimize nested objects and drop them when they
become empty, keep every other value. -/
def optimizeFields : JObj → JObj
  | [] => []
  | (key, value) :: rest =>
    match value with
    | .null => optimizeFields rest
    | .arr xs =>
      if xs.length > 0 then (key, .arr xs) :: optimizeFields rest else optimizeFields rest
    | .obj fs =>
      let optimizedNested := optimizeFields fs
      if optimizedNested.length > 0 then (key, .obj optimizedNested) :: optimizeFields rest
      else optimizeFields rest
    | v => (key, v) :: optimizeFields rest

/-- `optimizeObjectsData` on an object list. -/
def optimizeObjectsData (objects : List JObj) : List JObj :=
  objects.map optimizeFields

/-- The eviction strategies. -/
inductive EvictionStrategy where
  | lru
  | lfu
  | sizeBased
deriving DecidableEq, Repr

/-- A `PartitionedCacheEntry` of the apps partition (`memoryUsageBytes`
stores the serialized-size estimate computed at admission). -/
structure MOAppEntry where
  appData : BCAppM
  timestamp : Nat
  fileHash : String
  accessCount : Nat
  lastAccessed : Nat
  memoryUsageBytes : Nat
deriving DecidableEq, Repr

/-- The `MemoryOptimizedCache` state (`CachePartitions` plus configuration). -/
structure MemoryOptimizedCache where
  apps : JSMap MOAppEntry
  tables : JSMap CacheData
  codeunits : JSMap CacheData
  pages : JSMap CacheData
  pageExtensions : JSMap CacheData
  reports : JSMap CacheData
  enums : JSMap CacheData
  others : JSMap CacheData
  maxAge : Nat
  maxMemoryMB : Nat
  compressionEnabled : Bool
  evictionStrategy : EvictionStrategy

/-- The object partitions, named. -/
inductive PartId where
  | tables
  | codeunits
  | pages
  | pageExtensions
  | reports
  | enums
  | others
deriving DecidableEq, Repr

/-- `getPartitionForType` (switch on the lower-cased type, with the
fallthrough pairs of the source). -/
def getPartitionForType (objectType : String) : PartId :=
  let t := jsToLower objectType
  if t = "table" || t = "tableextension" then .tables
  else if t = "codeunit" then .codeunits
  else if t = "page" then .pages
  else if t = "pageextension" then .pageExtensions
  else if t = "report" || t = "reportextension" then .reports
  else if t = "enum" then .enums
  else .others

/-- Read one object partition. -/
def MemoryOptimizedCache.getPart (s : MemoryOptimizedCache) : PartId → JSMap CacheData
  | .tables => s.tables
  | .codeunits => s.codeunits
  | .pages => s.pages
  | .pageExtensions => s.pageExtensions
  | .reports => s.reports
  | .enums => s.enums
  | .others => s.others

/-- Replace one object partition. -/
def MemoryOptimizedCache.setPart (s : MemoryOptimizedCache) (p : PartId)
    (m : JSMap CacheData) : MemoryOptimizedCache :=
  match p with
  | .tables => { s with tables := m }
  | .codeunits => { s with codeunits := m }
  | .pages => { s with pages := m }
  | .pageExtensions => { s with pageExtensions := m }
  | .reports => { s with reports := m }
  | .enums => { s with enums := m }
  | .others => { s with others := m }

/-- The partitions in the `Object.entries(this.cache)` iteration order used
by `getMemoryStats` and `findLargestObjects` (after `apps`). -/
def partIdsInOrder : List PartId :=
  [.tables, .codeunits, .pages, .pageExtensions, .reports, .enums, .others]

/-- The partition-name prefix used in `findLargestObjects` keys. -/
def partName : PartId → String
  | .tables => "tables"
  | .codeunits => "codeunits"
  | .pages => "pages"
  | .pageExtensions => "pageExtensions"
  | .reports => "reports"
  | .enums => "enums"
  | .others => "others"

/-- Total estimated byte footprint: the stored per-app estimates plus the
estimated size of every partition payload (`getMemoryStats().totalMemoryMB`
before unit conversion). -/
def MemoryOptimizedCache.totalBytes (dataSize : CacheData → Nat)
    (s : MemoryOptimizedCache) : Nat :=
  s.apps.foldl (fun acc kv => acc + kv.2.memoryUsageBytes) 0 +
    (partIdsInOrder.foldl
      (fun acc p => acc + (s.getPart p).foldl (fun a kv => a + dataSize kv.2) 0) 0)

/-- `getMemoryStats().totalMemoryMB` in exact centi-megabytes. -/
def MemoryOptimizedCache.totalCentiMB (dataSize : CacheData → Nat)
    (s : MemoryOptimizedCache) : Nat :=
  roundCentiMB (s.totalBytes dataSize)

/-- Delete one app entry. -/
def MemoryOptimizedCache.deleteApp (s : MemoryOptimizedCache) (key : String) :
    MemoryOptimizedCache :=
  { s with apps := mapDelete s.apps key }

/-- The shared eviction loop of `evictLRU` / `evictLFU`: walk the sorted app
keys, deleting one entry at a time and stopping as soon as the recomputed
footprint is under budget. -/
def MemoryOptimizedCache.evictLoopApps (dataSize : CacheData → Nat)
    (s : MemoryOptimizedCache) : List String → MemoryOptimizedCache
  | [] => s
  | k :: rest =>
    let s2 := s.deleteApp k
    if s2.totalCentiMB dataSize ≤ 100 * s2.maxMemoryMB then s2
    else MemoryOptimizedCache.evictLoopApps dataSize s2 rest

/-- `evictLRU`: app entries sorted by `lastAccessed` ascending. -/
def MemoryOptimizedCache.evictLRU (dataSize : CacheData → Nat)
    (s : MemoryOptimizedCache) : MemoryOptimizedCache :=
  s.evictLoopApps dataSize
    ((List.insertionSort (fun a b => a.2.lastAccessed ≤ b.2.lastAccessed) s.apps).map Prod.fst)

/-- `evictLFU`: app entries sorted by `accessCount` ascending. -/
def MemoryOptimizedCache.evictLFU (dataSize : CacheData → Nat)
    (s : MemoryOptimizedCache) : MemoryOptimizedCache :=
  s.evictLoopApps dataSize
    ((List.insertionSort (fun a b => a.2.accessCount ≤ b.2.accessCount) s.apps).map Prod.fst)

/-- `findLargestObjects`: every stored blob with its prefixed key and
estimated size, sorted by size descending. -/
def MemoryOptimizedCache.findLargestObjects (dataSize : CacheData → Nat)
    (s : MemoryOptimizedCache) : List (String × Nat) :=
  let appsL := s.apps.map (fun kv => ("apps:" ++ kv.1, kv.2.memoryUsageBytes))
  let partsL :=
    partIdsInOrder.foldl
      (fun acc p =>
        acc ++ (s.getPart p).map (fun kv => (partName p ++ ":" ++ kv.1, dataSize kv.2)))
      []
  List.insertionSort (fun a b => b.2 ≤ a.2) (appsL ++ partsL)

/-- `evictLargest`: walk the size-descending blob list; the partition to
delete from is re-derived from the key prefix via `getPartitionForType`
(which sends the partition names of non-`others` partitions to `others`, so
those deletions miss — a faithfully modelled quirk of the source). -/
def MemoryOptimizedCache.evictLargestLoop (dataSize : CacheData → Nat)
    (s : MemoryOptimizedCache) : List (String × Nat) → MemoryOptimizedCache
  | [] => s
  | (fullKey, _) :: rest =>
    let parts := jsSplitChar ':' fullKey
    let partitionName := parts.headD ""
    let key := String.intercalate ":" parts.tail
    let s2 :=
      if partitionName = "apps" then s.deleteApp key
      else
        let p := getPartitionForType partitionName
        s.setPart p (mapDelete (s.getPart p) key)
    if s2.totalCentiMB dataSize ≤ 100 * s2.maxMemoryMB then s2
    else MemoryOptimizedCache.evictLargestLoop dataSize s2 rest

/-- `evictLargest`. -/
def MemoryOptimizedCache.evictLargest (dataSize : CacheData → Nat)
    (s : MemoryOptimizedCache) : MemoryOptimizedCache :=
  s.evictLargestLoop dataSize (s.findLargestObjects dataSize)

/-- `MemoryOptimizedCache.enforceMemoryLimits`: nothing to do when under
budget, else dispatch to the configured strategy (a single pass). -/
def MemoryOptimizedCache.enforceMemoryLimits (dataSize : CacheData → Nat)
    (s : MemoryOptimizedCache) : MemoryOptimizedCache :=
  if s.totalCentiMB dataSize ≤ 100 * s.maxMemoryMB then s
  else
    match s.evictionStrategy with
    | .lru => s.evictLRU dataSize
    | .lfu => s.evictLFU dataSize
    | .sizeBased => s.evictLargest dataSize

/-- `optimizeAppData`: strip the symbol data down to the runtime version
(namespaces are dropped; they are loaded separately). -/
def optimizeAppData (app : BCAppM) : BCAppM :=
  { app with
    symbolsRuntimeVersion := app.symbolsRuntimeVersion
    symbolsNamespaces := 0 }

/-- `setApp`: store the optimized app entry (with its size estimate), then
enforce the memory ceiling.  `appSize` models
`JSON.stringify(optimizedApp).length`. -/
def MemoryOptimizedCache.setApp (appSize : BCAppM → Nat) (dataSize : CacheData → Nat)
    (s : MemoryOptimizedCache) (filePath : String) (app : BCAppM) (now : Nat) :
    MemoryOptimizedCache :=
  let optimizedApp := optimizeAppData app
  let memoryUsage := appSize optimizedApp
  let s2 :=
    { s with
      apps :=
        mapSet s.apps filePath
          { appData := optimizedApp, timestamp := now, fileHash := app.fileHash
            accessCount := 0, lastAccessed := now, memoryUsageBytes := memoryUsage } }
  s2.enforceMemoryLimits dataSize

/-- `setObjects`: optimize, optionally compress, store under
`appId:objectType` in the type partition, then enforce the memory ceiling. -/
def MemoryOptimizedCache.setObjects (dataSize : CacheData → Nat)
    (s : MemoryOptimizedCache) (appId objectType : String) (objects : List JObj) :
    MemoryOptimizedCache :=
  let p := getPartitionForType objectType
  let key := appId ++ ":" ++ objectType
  let optimizedObjects := optimizeObjectsData objects
  let data :=
    if s.compressionEnabled then compressData optimizedObjects
    else CacheData.plain optimizedObjects
  let s2 := s.setPart p (mapSet (s.getPart p) key data)
  s2.enforceMemoryLimits dataSize

/-- `getObjects`: read the partition; decompress when compression is enabled
and the payload is wrapped, else return the stored payload as-is. -/
def MemoryOptimizedCache.getObjects (s : MemoryOptimizedCache) (appId objectType : String) :
    Option (List JObj) :=
  let p := getPartitionForType objectType
  let key := appId ++ ":" ++ objectType
  match mapGet (s.getPart p) key with
  | none => none
  | some data =>
    if s.compressionEnabled && isCompressed data then some (decompressData data)
    else some data.payload

/-! ## ProgressiveAppLoader (src/types/bc-types.ts)

Only the cancellation-relevant portion is embedded: the active-task registry
(`loadingTasks`), cancellation, and the batch loop of `loadObjectBatches`.
The loop's progress reporting, ETA arithmetic and inter-batch delay do not
affect which batches get scheduled and are not modelled; scheduling a batch
is recorded in the `scheduledBatches` trace. -/

/-- The loader state: the active-task registry plus the trace of batches
scheduled so far. -/
structure ProgressiveAppLoader where
  loadingTasks : List String
  scheduledBatches : List (List SPObjectMetadata)
deriving DecidableEq, Repr

/-- `getActiveLoadingTasks`. -/
def ProgressiveAppLoader.getActiveLoadingTasks (s : ProgressiveAppLoader) : List String :=
  s.loadingTasks

/-- `cancelBackgroundLoading`: delete the task id from the registry and
report whether it was present.  Nothing else is signalled to the running
task. -/
def ProgressiveAppLoader.cancelBackgroundLoading (s : ProgressiveAppLoader)
    (taskId : String) : Bool × ProgressiveAppLoader :=
  if taskId ∈ s.loadingTasks then (true, { s with loadingTasks := s.loadingTasks.erase taskId })
  else (false, s)

/-- Auxiliary for `listChunks`, with fuel (one unit per produced chunk; the
input length is enough fuel for a positive batch size). -/
def listChunksAux {α : Type} (bs : Nat) : Nat → List α → List (List α)
  | _, [] => []
  | 0, _ => []
  | fuel + 1, l => l.take bs :: listChunksAux bs fuel (l.drop bs)

/-- The `slice(i, i + batchSize)` chunking of the batch loop.  A batch size
of `0` makes the source loop forever; it is modelled as producing no
batches. -/
def listChunks {α : Type} (bs : Nat) (l : List α) : List (List α) :=
  if bs = 0 then [] else listChunksAux bs l.length l

/-- `loadObjectBatches`: split the object list into batches and schedule
every batch in order, accumulating the loaded count.  The registry
`loadingTasks` is never consulted between batches. -/
def ProgressiveAppLoader.loadObjectBatches (s : ProgressiveAppLoader)
    (objects : List SPObjectMetadata) (batchSize : Nat) (initialLoadedCount : Nat) :
    Nat × ProgressiveAppLoader :=
  (listChunks batchSize objects).foldl
    (fun acc batch =>
      (acc.1 + batch.length,
       { acc.2 with scheduledBatches := acc.2.scheduledBatches ++ [batch] }))
    (initialLoadedCount, s)

/-! ## Basic lemmas about the JavaScript collection models -/

/-- A string without `:` characters.  Object keys are built by `:`-joining;
colon-free components make the join uniquely parseable. -/
def ColonFree (s : String) : Prop :=
  ':' ∉ s.data

instance : DecidablePred ColonFree := fun s => by
  unfold ColonFree
  infer_instance

/-- Unique keys, as JavaScript `Map`s have by construction. -/
def NodupKeys {α : Type} (m : JSMap α) : Prop :=
  (mapKeys m).Nodup

instance {α : Type} (m : JSMap α) : Decidable (NodupKeys m) := by
  unfold NodupKeys
  infer_instance

/-! ## Bucket lemmas for the secondary indices -/

/-- The bucket of a secondary index under a key (empty when absent). -/
def bucket (idx : JSMap JSSet) (w : String) : JSSet :=
  (mapGet idx w).getD []

/-- Structural health of a secondary index: no empty buckets, no duplicate
members inside a bucket. -/
def BucketsOk (idx : JSMap JSSet) : Prop :=
  ∀ w l, mapGet idx w = some l → l ≠ [] ∧ l.Nodup

/-! ## The ObjectIndex well-formedness invariant -/

/-- Secondary-index semantics: the property of an entry that membership of
its key in a bucket stands for. -/
def typeP (e : ObjectIndexEntry) (w : String) : Prop := e.objectType = w

/-- Name-index semantics. -/
def nameP (e : ObjectIndexEntry) (w : String) : Prop := jsToLower e.objectName = w

/-- App-index semantics. -/
def appP (e : ObjectIndexEntry) (w : String) : Prop := e.appId = w

/-- Keyword-index semantics (buckets are keyed by lower-cased keywords). -/
def kwP (e : ObjectIndexEntry) (w : String) : Prop :=
  w ∈ e.keywords.map jsToLower

/-- Dependency-index semantics. -/
def depP (e : ObjectIndexEntry) (w : String) : Prop := w ∈ e.dependencies

/-- A secondary index is exactly the inversion of the primary map under the
property `P`: a key sits in bucket `w` iff the primary map holds an entry for
it satisfying `P _ w`. -/
def BucketRel (primary : JSMap ObjectIndexEntry) (idx : JSMap JSSet)
    (P : ObjectIndexEntry → String → Prop) : Prop :=
  ∀ w k, k ∈ bucket idx w ↔ ∃ e, mapGet primary k = some e ∧ P e w

/-- Per-entry health: the entry sits under its own `createObjectKey`, its key
components are colon-free (so keys parse uniquely), and its derived fields
are what `indexObject` computes. -/
def EntryOk (k : String) (e : ObjectIndexEntry) : Prop :=
  k = createObjectKey e.appId e.objectType e.objectId e.objectName ∧
    ColonFree e.appId ∧ ColonFree e.objectType ∧ ColonFree e.objectName ∧
    e.keywords = extractKeywords e.objectName e.objectType ∧
    e.dependencies = []

/-- The full well-formedness invariant of an `ObjectIndex` state. -/
structure IndexWF (s : ObjectIndex) : Prop where
  nodup_index : NodupKeys s.index
  nodup_type : NodupKeys s.typeIndex
  nodup_name : NodupKeys s.nameIndex
  nodup_app : NodupKeys s.appIndex
  nodup_kw : NodupKeys s.keywordIndex
  nodup_dep : NodupKeys s.dependencyIndex
  ok_type : BucketsOk s.typeIndex
  ok_name : BucketsOk s.nameIndex
  ok_app : BucketsOk s.appIndex
  ok_kw : BucketsOk s.keywordIndex
  ok_dep : BucketsOk s.dependencyIndex
  entries_ok : ∀ k e, mapGet s.index k = some e → EntryOk k e
  rel_type : BucketRel s.index s.typeIndex typeP
  rel_name : BucketRel s.index s.nameIndex nameP
  rel_app : BucketRel s.index s.appIndex appP
  rel_kw : BucketRel s.index s.keywordIndex kwP
  rel_dep : BucketRel s.index s.dependencyIndex depP

/-- The entry built by `indexObject`, named for the proofs. -/
def mkIndexEntry (app : BCAppInfo) (objectType : String) (m : ObjectMetadataInput)
    (now : Nat) : ObjectIndexEntry :=
  { appId := app.id
    objectType := objectType
    objectId := m.objectId
    objectName := m.name
    nspace := if m.nspace = "" then "Root" else m.nspace
    filePath := app.filePath
    lastModified := now
    properties := extractProperties m.properties
    dependencies := extractDependencies app objectType m
    keywords := extractKeywords m.name objectType }

/-! ## Reachability -/

/-- States reachable by any sequence of `indexApp`, `removeApp` and `clear`
from the fresh index. -/
inductive ObjectIndex.Reachable : ObjectIndex → Prop where
  | empty : ObjectIndex.Reachable ObjectIndex.empty
  | indexApp {s : ObjectIndex} (app : BCAppInfo)
      (loader : String → String → List ObjectMetadataInput) (now : Nat) :
      ObjectIndex.Reachable s → ObjectIndex.Reachable (s.indexApp app loader now)
  | removeApp {s : ObjectIndex} (appId : String) :
      ObjectIndex.Reachable s → ObjectIndex.Reachable (s.removeApp appId)
  | clear {s : ObjectIndex} :
      ObjectIndex.Reachable s → ObjectIndex.Reachable s.clear

/-- Reachability with colon-free inputs: every indexed app id and every
metadata name delivered by the loader is free of `:` characters (so that the
`:`-joined object keys of distinct objects never collide). -/
inductive ObjectIndex.CleanReachable : ObjectIndex → Prop where
  | empty : ObjectIndex.CleanReachable ObjectIndex.empty
  | indexApp {s : ObjectIndex} (app : BCAppInfo)
      (loader : String → String → List ObjectMetadataInput) (now : Nat) :
      ObjectIndex.CleanReachable s → ColonFree app.id →
      (∀ t ∈ bcObjectTypes, ∀ m ∈ loader app.filePath t, ColonFree m.name) →
      ObjectIndex.CleanReachable (s.indexApp app loader now)
  | removeApp {s : ObjectIndex} (appId : String) :
      ObjectIndex.CleanReachable s → ObjectIndex.CleanReachable (s.removeApp appId)
  | clear {s : ObjectIndex} :
      ObjectIndex.CleanReachable s → ObjectIndex.CleanReachable s.clear

/-! ## Search correctness: the naive predicate scan

`matchesFilter` is the specification-side predicate: the naive scan applies
every present filter dimension conjunctively to a single entry, an empty
array being a no-op; `naiveSearch` filters all primary-index entries by it. -/

/-- Present-and-non-empty dimension test (empty array = no-op). -/
def dimApplies {β : Type} (dim : Option (List β)) (test : List β → Bool) : Bool :=
  match dim with
  | some l => if l.isEmpty then true else test l
  | none => true

/-- The naive per-entry filter predicate, written from the specification: app
ids, object types, lower-cased names, keywords, explicit id list, id range,
namespaces and property equality, each conjunctive, empty arrays no-ops. -/
def matchesFilter (filter : SearchFilter) (e : ObjectIndexEntry) : Bool :=
  dimApplies filter.appIds (fun l => l.contains e.appId) &&
  dimApplies filter.objectTypes (fun l => l.contains e.objectType) &&
  dimApplies filter.objectNames (fun l => (l.map jsToLower).contains (jsToLower e.objectName)) &&
  dimApplies filter.keywords
    (fun l => l.any (fun w => e.keywords.any (fun kw => jsToLower kw = jsToLower w))) &&
  dimApplies filter.objectIds (fun l => l.contains e.objectId) &&
  (match filter.minId with | some mn => decide (mn ≤ e.objectId) | none => true) &&
  (match filter.maxId with | some mx => decide (e.objectId ≤ mx) | none => true) &&
  dimApplies filter.namespaces (fun l => l.contains e.nspace) &&
  (match filter.properties with
   | some props => props.all (fun p => mapGet e.properties p.1 = some p.2)
   | none => true)

/-- The naive predicate scan of all primary-index entries. -/
def naiveSearch (s : ObjectIndex) (filter : SearchFilter) : List ObjectIndexEntry :=
  (s.index.map Prod.snd).filter (fun e => matchesFilter filter e)

/-! ## Concrete fixtures for the counterexamples and witnesses

`cexApp2`'s app id embeds a whole `type:id:name` suffix, so its object
collides on `createObjectKey` with `cexApp1`'s object whose name embeds the
same suffix: both produce the key `a:table:1:x:table:1:x`. -/

/-- Fixture app 1: id `a`. -/
def cexApp1 : BCAppInfo := { id := "a", filePath := "p1" }

/-- Fixture app 2: id `a:table:1:x` (contains colons). -/
def cexApp2 : BCAppInfo := { id := "a:table:1:x", filePath := "p2" }

/-- Fixture app 3: id `b` (colon-free). -/
def cexApp3 : BCAppInfo := { id := "b", filePath := "p3" }

/-- Loader for app 1: one table named `x:table:1:x` (contains colons). -/
def cexLoader1 : String → String → List ObjectMetadataInput := fun _ t =>
  if t = "table" then [{ objectId := 1, name := "x:table:1:x", nspace := "", properties := [] }]
  else []

/-- Loader for apps 2 and 1-clean: one table named `x` (colon-free). -/
def cexLoader2 : String → String → List ObjectMetadataInput := fun _ t =>
  if t = "table" then [{ objectId := 1, name := "x", nspace := "", properties := [] }]
  else []

/-- Loader for app 3: one table named `y` (colon-free). -/
def cexLoader3 : String → String → List ObjectMetadataInput := fun _ t =>
  if t = "table" then [{ objectId := 2, name := "y", nspace := "", properties := [] }]
  else []

/-- The colliding two-app state. -/
def cexState : ObjectIndex :=
  (ObjectIndex.empty.indexApp cexApp1 cexLoader1 0).indexApp cexApp2 cexLoader2 0

/-- The colliding state after removing app 2. -/
def cexRemoved : ObjectIndex :=
  cexState.removeApp "a:table:1:x"

/-- The filter selecting app `a`. -/
def cexFilter : SearchFilter := { appIds := some ["a"] }

/-- A clean one-app state (app `a`, one table `x`). -/
def wState : ObjectIndex :=
  ObjectIndex.empty.indexApp cexApp1 cexLoader2 0

/-- A clean filter for the witness. -/
def wFilter : SearchFilter := { objectTypes := some ["table"] }

/-- Clean state with apps `b` then `a`, then `a` removed. -/
def wRemovedState : ObjectIndex :=
  ((ObjectIndex.empty.indexApp cexApp3 cexLoader3 0).indexApp cexApp1 cexLoader2 0).removeApp "a"

/-! ## Fixtures for the cache claims -/

/-- A concrete app value. -/
def c2App : BCAppM :=
  { id := "app1", name := "App One", fileHash := "h1", symbolsRuntimeVersion := "",
    symbolsNamespaces := 0 }

/-- A lazy-cache entry admitted at time 0 under hash `h1`. -/
def c2Entry : LazyAppEntry :=
  { appData := c2App, symbolsLen := 10, sparser := StreamingSymbolParser.init,
    objectCache := [], timestamp := 0, fileHash := "h1", accessCount := 0, lastAccessed := 0 }

/-- A lazy cache holding `c2Entry` under path `p`. -/
def c2Cache : LazyMemoryCache :=
  { cache := [("p", c2Entry)], maxAge := 1000, maxMemoryMB := 512, hits := 0, misses := 0 }

/-- A plain memory-cache entry admitted at time 0 under hash `h1`. -/
def mcEntry : MCEntry := { data := c2App, timestamp := 0, fileHash := "h1" }

/-- A plain memory cache holding `mcEntry` under path `p`. -/
def mcFixture : MemoryCache := { cache := [("p", mcEntry)], maxAge := 1000 }

/-- Parser fixture with one unloaded `table` object `X`. -/
def c5Meta : SPObjectMetadata :=
  { objectType := "table", objectId := 1, name := "X", nspace := "Root", offset := 0,
    size := 0, loaded := false }

/-- Parser state holding `c5Meta`. -/
def c5Parser : StreamingSymbolParser :=
  { runtimeVersion := "", objectIndex := [("table:1:X", c5Meta)], totalObjects := 1,
    loadedObjects := 0 }

/-- Lazy-cache entry whose parser is `c5Parser`. -/
def c5Entry : LazyAppEntry :=
  { appData := c2App, symbolsLen := 10, sparser := c5Parser, objectCache := [],
    timestamp := 0, fileHash := "h1", accessCount := 0, lastAccessed := 0 }

/-- Lazy cache holding `c5Entry` under path `p`. -/
def c5Cache : LazyMemoryCache :=
  { cache := [("p", c5Entry)], maxAge := 1000, maxMemoryMB := 512, hits := 0, misses := 0 }

/-- The state produced by the witness call of `loadObjectsByType` below. -/
def c10ResState : LazyMemoryCache :=
  { c2Cache with
    cache := mapSet c2Cache.cache "p"
      ({ c2Entry with
         sparser := StreamingSymbolParser.init,
         objectCache := mapSet [] ("table" ++ ":all") (.arr []),
         lastAccessed := 5 }),
    misses := c2Cache.misses + 1 }

/-- Size estimators for the C3 counterexample: the serialized sizes are
irrelevant, only the symbol-buffer lengths matter. -/
def cexAppSize : BCAppM → Nat := fun _ => 0

/-- Object-cache size estimator for the C3 counterexample. -/
def cexCacheSize : JSMap JVal → Nat := fun _ => 0

/-- Payload size estimator for the C3 witness. -/
def cexCacheSizeMO : CacheData → Nat := fun _ => 0

/-- An empty lazy cache with a zero-MB ceiling. -/
def emptyLazyCache : LazyMemoryCache :=
  { cache := [], maxAge := 1000, maxMemoryMB := 0, hits := 0, misses := 0 }

/-- Two admissions of gigabyte symbol buffers in the same millisecond
(`Date.now()` = 0 for both). -/
def cexLazyCache : LazyMemoryCache :=
  LazyMemoryCache.setLazy cexAppSize cexCacheSize
    (LazyMemoryCache.setLazy cexAppSize cexCacheSize emptyLazyCache "p1" c2App none
      1000000000 0)
    "p2" c2App none 1000000000 0

/-- An empty partitioned cache configured for LRU eviction. -/
def emptyMOCache : MemoryOptimizedCache :=
  { apps := [], tables := [], codeunits := [], pages := [], pageExtensions := [],
    reports := [], enums := [], others := [], maxAge := 1000, maxMemoryMB := 100,
    compressionEnabled := false, evictionStrategy := .lru }

/-- One stored object whose only field is an empty array — exactly what the
optimization pass deletes. -/
def c7Objs : List JObj := [[("x", JVal.arr [])]]

/-! ## Claim C8 -/

/-- Metadata fixture for the C8 batch loop. -/
def c8Meta1 : SPObjectMetadata :=
  { objectType := "table", objectId := 1, name := "A", nspace := "Root", offset := 0,
    size := 0, loaded := false }

/-- Second metadata fixture for the C8 batch loop. -/
def c8Meta2 : SPObjectMetadata :=
  { objectType := "table", objectId := 2, name := "B", nspace := "Root", offset := 0,
    size := 0, loaded := false }

/-- A loader with one registered background task and no scheduled batches. -/
def c8Loader : ProgressiveAppLoader :=
  { loadingTasks := ["bg-1"], scheduledBatches := [] }

theorem mapGet_mapSet {α : Type} (m : JSMap α) (k : String) (v : α) (k' : String) :
    mapGet (mapSet m k v) k' = if k = k' then some v else mapGet m k' := by
  induction m with
  | nil =>
    by_cases h : k = k' <;> simp [mapSet, mapGet, h]
  | cons kv rest ih =>
    obtain ⟨k0, v0⟩ := kv
    by_cases h0 : k0 = k
    · subst h0
      by_cases h1 : k0 = k' <;> simp [mapSet, mapGet, h1]
    · by_cases h1 : k0 = k'
      · subst h1
        have : ¬ (k = k0) := fun h => h0 h.symm
        simp [mapSet, mapGet, h0, this]
      · simp [mapSet, mapGet, h0, h1, ih]

theorem mapGet_eq_none_iff {α : Type} (m : JSMap α) (k : String) :
    mapGet m k = none ↔ k ∉ mapKeys m := by
  induction m with
  | nil => simp [mapGet, mapKeys]
  | cons kv rest ih =>
    obtain ⟨k0, v0⟩ := kv
    by_cases h0 : k0 = k
    · subst h0
      simp [mapGet, mapKeys]
    · have hne : ¬ (k = k0) := fun h => h0 h.symm
      simp only [mapGet, mapKeys, List.map_cons, List.mem_cons, h0, if_false]
      rw [ih]
      unfold mapKeys
      constructor
      · intro h
        rintro (h2 | h2)
        · exact hne h2
        · exact h h2
      · intro h h2
        exact h (Or.inr h2)

theorem mapGet_isSome_of_mem_keys {α : Type} {m : JSMap α} {k : String}
    (h : k ∈ mapKeys m) : ∃ v, mapGet m k = some v := by
  rcases he : mapGet m k with _ | v
  · exact absurd ((mapGet_eq_none_iff m k).mp he) (by simp [h])
  · exact ⟨v, rfl⟩

theorem mapKeys_mapSet {α : Type} (m : JSMap α) (k : String) (v : α) :
    mapKeys (mapSet m k v) = if k ∈ mapKeys m then mapKeys m else mapKeys m ++ [k] := by
  induction m with
  | nil => simp [mapSet, mapKeys]
  | cons kv rest ih =>
    obtain ⟨k0, v0⟩ := kv
    by_cases h0 : k0 = k
    · subst h0
      simp [mapSet, mapKeys]
    · have hne : ¬ k = k0 := fun h => h0 h.symm
      unfold mapKeys at *
      simp only [mapSet, h0, if_false, List.map_cons, List.mem_cons]
      rw [ih]
      by_cases h1 : k ∈ rest.map Prod.fst
      · simp [h1, hne]
      · simp [h1, hne]

theorem nodupKeys_mapSet {α : Type} {m : JSMap α} (h : NodupKeys m) (k : String) (v : α) :
    NodupKeys (mapSet m k v) := by
  unfold NodupKeys at *
  rw [mapKeys_mapSet]
  by_cases h1 : k ∈ mapKeys m <;> simp [h1, h, List.nodup_append, List.disjoint_singleton]

theorem mapGet_mapDelete {α : Type} {m : JSMap α} (h : NodupKeys m) (k k' : String) :
    mapGet (mapDelete m k) k' = if k = k' then none else mapGet m k' := by
  induction m with
  | nil => simp [mapDelete, mapGet]
  | cons kv rest ih =>
    obtain ⟨k0, v0⟩ := kv
    have hrest : NodupKeys rest := by
      unfold NodupKeys at h ⊢
      simp [mapKeys] at h ⊢
      exact h.2
    by_cases h0 : k0 = k
    · subst h0
      by_cases h1 : k0 = k'
      · subst h1
        simp [mapDelete, mapGet]
        rw [mapGet_eq_none_iff]
        unfold NodupKeys at h
        simp [mapKeys] at h ⊢
        exact h.1
      · simp [mapDelete, mapGet, h1]
    · by_cases h1 : k0 = k'
      · subst h1
        have hne : ¬ (k = k0) := fun hh => h0 hh.symm
        simp [mapDelete, mapGet, h0, hne]
      · simp [mapDelete, mapGet, h0, h1, ih hrest]

theorem mapKeys_mapDelete_subset {α : Type} {m : JSMap α} (hm : NodupKeys m) (k : String) :
    mapKeys (mapDelete m k) ⊆ mapKeys m := by
  intro x hx
  by_contra hx2
  have hnone : mapGet m x = none := (mapGet_eq_none_iff m x).mpr hx2
  rcases mapGet_isSome_of_mem_keys hx with ⟨v, hv⟩
  have h5 := mapGet_mapDelete (m := m) hm k x
  by_cases h6 : k = x
  · rw [h5, if_pos h6] at hv
    simp at hv
  · rw [h5, if_neg h6, hnone] at hv
    simp at hv

theorem nodupKeys_cons_iff {α : Type} {k0 : String} {v0 : α} {rest : JSMap α} :
    NodupKeys ((k0, v0) :: rest) ↔ k0 ∉ mapKeys rest ∧ NodupKeys rest := by
  unfold NodupKeys mapKeys
  simp [List.nodup_cons]

theorem nodupKeys_mapDelete {α : Type} {m : JSMap α} (h : NodupKeys m) (k : String) :
    NodupKeys (mapDelete m k) := by
  induction m with
  | nil => simpa [mapDelete] using h
  | cons kv rest ih =>
    obtain ⟨k0, v0⟩ := kv
    rcases nodupKeys_cons_iff.mp h with ⟨hk0, hrest⟩
    by_cases h0 : k0 = k
    · subst h0
      simpa [mapDelete] using hrest
    · simp only [mapDelete, h0, if_false]
      rw [nodupKeys_cons_iff]
      exact ⟨fun hmem => hk0 (mapKeys_mapDelete_subset hrest k hmem), ih hrest⟩

theorem nodupKeys_nil {α : Type} : NodupKeys ([] : JSMap α) := by
  simp [NodupKeys, mapKeys]

theorem mem_setAdd {s : JSSet} {v x : String} :
    x ∈ setAdd s v ↔ x ∈ s ∨ x = v := by
  unfold setAdd
  by_cases h : v ∈ s
  · simp [h]
    intro hx; subst hx; exact h
  · simp [h]

theorem nodup_setAdd {s : JSSet} (h : s.Nodup) (v : String) : (setAdd s v).Nodup := by
  unfold setAdd
  by_cases hv : v ∈ s <;> simp [hv, List.nodup_append, h]

theorem setAdd_ne_nil (s : JSSet) (v : String) : setAdd s v ≠ [] := by
  unfold setAdd
  by_cases hv : v ∈ s
  · rw [if_pos hv]
    rintro rfl
    simp at hv
  · rw [if_neg hv]
    simp

theorem bucketsOk_nil : BucketsOk [] := by
  intro w l h
  simp [mapGet] at h

theorem bucket_nodup {idx : JSMap JSSet} (h : BucketsOk idx) (w : String) :
    (bucket idx w).Nodup := by
  unfold bucket
  rcases he : mapGet idx w with _ | l
  · simp
  · simpa using (h w l he).2

theorem bucket_addToIndex (idx : JSMap JSSet) (w0 v w : String) :
    bucket (ObjectIndex.addToIndex idx w0 v) w =
      if w0 = w then setAdd (bucket idx w0) v else bucket idx w := by
  unfold ObjectIndex.addToIndex bucket
  rw [mapGet_mapSet]
  by_cases h : w0 = w <;> simp [h]

theorem nodupKeys_addToIndex {idx : JSMap JSSet} (h : NodupKeys idx) (w0 v : String) :
    NodupKeys (ObjectIndex.addToIndex idx w0 v) :=
  nodupKeys_mapSet h _ _

theorem bucketsOk_addToIndex {idx : JSMap JSSet} (h : BucketsOk idx) (w0 v : String) :
    BucketsOk (ObjectIndex.addToIndex idx w0 v) := by
  intro w l hl
  unfold ObjectIndex.addToIndex at hl
  rw [mapGet_mapSet] at hl
  by_cases h0 : w0 = w
  · rw [if_pos h0] at hl
    have heq : l = setAdd (bucket idx w0) v := by
      simpa using hl.symm
    subst heq
    exact ⟨setAdd_ne_nil _ _, nodup_setAdd (bucket_nodup h w0) v⟩
  · rw [if_neg h0] at hl
    exact h w l hl

theorem bucket_removeFromIndex {idx : JSMap JSSet} (h : NodupKeys idx) (w0 v w : String) :
    bucket (ObjectIndex.removeFromIndex idx w0 v) w =
      if w0 = w then (bucket idx w0).erase v else bucket idx w := by
  unfold ObjectIndex.removeFromIndex bucket
  rcases he : mapGet idx w0 with _ | s
  · by_cases h0 : w0 = w
    · subst h0
      simp [he]
    · simp [h0]
  · simp only [setDelete]
    by_cases hempty : (s.erase v).isEmpty
    · rw [if_pos hempty]
      rw [mapGet_mapDelete h]
      by_cases h0 : w0 = w
      · subst h0
        simp [he, List.isEmpty_iff.mp hempty]
      · simp [h0]
    · rw [if_neg hempty]
      rw [mapGet_mapSet]
      by_cases h0 : w0 = w
      · subst h0
        simp [he]
      · simp [h0]

theorem nodupKeys_removeFromIndex {idx : JSMap JSSet} (h : NodupKeys idx) (w0 v : String) :
    NodupKeys (ObjectIndex.removeFromIndex idx w0 v) := by
  unfold ObjectIndex.removeFromIndex
  rcases mapGet idx w0 with _ | s
  · exact h
  · simp only [setDelete]
    by_cases hempty : (s.erase v).isEmpty
    · rw [if_pos hempty]
      exact nodupKeys_mapDelete h _
    · rw [if_neg hempty]
      exact nodupKeys_mapSet h _ _

theorem bucketsOk_removeFromIndex {idx : JSMap JSSet} (hn : NodupKeys idx)
    (h : BucketsOk idx) (w0 v : String) :
    BucketsOk (ObjectIndex.removeFromIndex idx w0 v) := by
  intro w l hl
  unfold ObjectIndex.removeFromIndex at hl
  rcases he : mapGet idx w0 with _ | s
  · rw [he] at hl
    exact h w l hl
  · rw [he] at hl
    simp only [setDelete] at hl
    by_cases hempty : (s.erase v).isEmpty
    · rw [if_pos hempty] at hl
      rw [mapGet_mapDelete hn] at hl
      by_cases h0 : w0 = w
      · rw [if_pos h0] at hl
        simp at hl
      · rw [if_neg h0] at hl
        exact h w l hl
    · rw [if_neg hempty] at hl
      rw [mapGet_mapSet] at hl
      by_cases h0 : w0 = w
      · rw [if_pos h0] at hl
        have heq : l = s.erase v := by simpa using hl.symm
        subst heq
        refine ⟨?_, ((h w0 s he).2).erase v⟩
        intro hnil
        rw [hnil] at hempty
        simp at hempty
      · rw [if_neg h0] at hl
        exact h w l hl

/-- Membership after the keyword-style fold of `addToIndex` over a list of
bucket keys (all insertions carry the same member `v`). -/
theorem mem_bucket_addFold (ws : List String) (idx : JSMap JSSet) (v x w : String) :
    (x ∈ bucket (ws.foldl (fun i u => ObjectIndex.addToIndex i u v) idx) w) ↔
      (x ∈ bucket idx w ∨ (x = v ∧ w ∈ ws)) := by
  induction ws generalizing idx with
  | nil => simp
  | cons u rest ih =>
    simp only [List.foldl_cons]
    rw [ih]
    rw [bucket_addToIndex]
    by_cases h0 : u = w
    · subst h0
      rw [if_pos rfl, mem_setAdd]
      constructor
      · rintro ((hx | hx) | hx)
        · exact Or.inl hx
        · exact Or.inr ⟨hx, by simp⟩
        · exact Or.inr ⟨hx.1, by simp [hx.2]⟩
      · rintro (hx | ⟨hx, _⟩)
        · exact Or.inl (Or.inl hx)
        · exact Or.inl (Or.inr hx)
    · rw [if_neg h0]
      constructor
      · rintro (hx | hx)
        · exact Or.inl hx
        · exact Or.inr ⟨hx.1, by simp [hx.2]⟩
      · rintro (hx | ⟨hx1, hx2⟩)
        · exact Or.inl hx
        · rcases List.mem_cons.mp hx2 with hx3 | hx3
          · exact absurd hx3.symm h0
          · exact Or.inr ⟨hx1, hx3⟩

theorem nodupKeys_addFold (ws : List String) {idx : JSMap JSSet} (h : NodupKeys idx)
    (v : String) : NodupKeys (ws.foldl (fun i u => ObjectIndex.addToIndex i u v) idx) := by
  induction ws generalizing idx with
  | nil => exact h
  | cons u rest ih => exact ih (nodupKeys_addToIndex h u v)

theorem bucketsOk_addFold (ws : List String) {idx : JSMap JSSet} (h : BucketsOk idx)
    (v : String) : BucketsOk (ws.foldl (fun i u => ObjectIndex.addToIndex i u v) idx) := by
  induction ws generalizing idx with
  | nil => exact h
  | cons u rest ih => exact ih (bucketsOk_addToIndex h u v)

/-- Membership after the keyword-style fold of `removeFromIndex` over a list
of bucket keys (all removals target the same member `v`). -/
theorem mem_bucket_removeFold (ws : List String) {idx : JSMap JSSet}
    (hn : NodupKeys idx) (hb : BucketsOk idx) (v x w : String) :
    (x ∈ bucket (ws.foldl (fun i u => ObjectIndex.removeFromIndex i u v) idx) w) ↔
      (x ∈ bucket idx w ∧ ¬ (x = v ∧ w ∈ ws)) := by
  induction ws generalizing idx with
  | nil => simp
  | cons u rest ih =>
    simp only [List.foldl_cons]
    rw [ih (nodupKeys_removeFromIndex hn u v) (bucketsOk_removeFromIndex hn hb u v)]
    rw [bucket_removeFromIndex hn]
    by_cases h0 : u = w
    · subst h0
      rw [if_pos rfl]
      rw [(bucket_nodup hb u).mem_erase_iff]
      constructor
      · rintro ⟨⟨hxv, hx⟩, hrest⟩
        refine ⟨hx, ?_⟩
        rintro ⟨rfl, _⟩
        exact hxv rfl
      · rintro ⟨hx, hnot⟩
        refine ⟨⟨?_, hx⟩, ?_⟩
        · rintro rfl
          exact hnot ⟨rfl, by simp⟩
        · rintro ⟨rfl, hw⟩
          exact hnot ⟨rfl, by simp⟩
    · rw [if_neg h0]
      constructor
      · rintro ⟨hx, hnot⟩
        refine ⟨hx, ?_⟩
        rintro ⟨rfl, hw⟩
        rcases List.mem_cons.mp hw with hw2 | hw2
        · exact h0 hw2.symm
        · exact hnot ⟨rfl, hw2⟩
      · rintro ⟨hx, hnot⟩
        refine ⟨hx, ?_⟩
        rintro ⟨rfl, hw⟩
        exact hnot ⟨rfl, by simp [hw]⟩

theorem nodupKeys_removeFold (ws : List String) {idx : JSMap JSSet} (h : NodupKeys idx)
    (v : String) :
    NodupKeys (ws.foldl (fun i u => ObjectIndex.removeFromIndex i u v) idx) := by
  induction ws generalizing idx with
  | nil => exact h
  | cons u rest ih => exact ih (nodupKeys_removeFromIndex h u v)

theorem bucketsOk_removeFold (ws : List String) {idx : JSMap JSSet} (hn : NodupKeys idx)
    (h : BucketsOk idx) (v : String) :
    BucketsOk (ws.foldl (fun i u => ObjectIndex.removeFromIndex i u v) idx) := by
  induction ws generalizing idx with
  | nil => exact h
  | cons u rest ih =>
    exact ih (nodupKeys_removeFromIndex hn u v) (bucketsOk_removeFromIndex hn h u v)

/-! ## Injectivity of `createObjectKey` on colon-free components

Keys are `appId:objectType:objectId:objectName`.  When the app id, the type
and the name are colon-free, the decomposition is unique (the decimal digits
of the id can never contain `:`). -/

theorem digitChar_isDigit {m : Nat} (h : m < 10) : (Nat.digitChar m).isDigit := by
  interval_cases m <;> decide

theorem toDigitsCore_isDigit (fuel n : Nat) (acc : List Char)
    (hacc : ∀ c ∈ acc, c.isDigit) : ∀ c ∈ Nat.toDigitsCore 10 fuel n acc, c.isDigit := by
  induction fuel generalizing n acc with
  | zero => simpa [Nat.toDigitsCore] using hacc
  | succ fuel ih =>
    intro c hc
    simp only [Nat.toDigitsCore] at hc
    by_cases h0 : n / 10 = 0
    · rw [if_pos h0] at hc
      rcases List.mem_cons.mp hc with hc1 | hc1
      · subst hc1
        exact digitChar_isDigit (Nat.mod_lt n (by norm_num))
      · exact hacc c hc1
    · rw [if_neg h0] at hc
      refine ih (n / 10) (Nat.digitChar (n % 10) :: acc) ?_ c hc
      intro d hd
      rcases List.mem_cons.mp hd with hd1 | hd1
      · subst hd1
        exact digitChar_isDigit (Nat.mod_lt n (by norm_num))
      · exact hacc d hd1

theorem natRepr_colonFree (n : Nat) : ':' ∉ (Nat.repr n).data := by
  intro hmem
  have hd : (':' : Char).isDigit := by
    have : ∀ c ∈ Nat.toDigits 10 n, c.isDigit := by
      unfold Nat.toDigits
      exact toDigitsCore_isDigit (n + 1) n [] (by simp)
    exact this ':' hmem
  simp [Char.isDigit] at hd

theorem intToString_colonFree (i : Int) : ColonFree (toString i) := by
  unfold ColonFree
  cases i with
  | ofNat m =>
    exact natRepr_colonFree m
  | negSucc m =>
    show ':' ∉ (Int.repr (Int.negSucc m)).data
    have : Int.repr (Int.negSucc m) = "-" ++ Nat.repr (m + 1) := rfl
    rw [this, String.data_append]
    intro hmem
    rcases List.mem_append.mp hmem with h1 | h1
    · simp [String.data] at h1
    · exact natRepr_colonFree (m + 1) h1

/-- Splitting a character list at the first colon is unique when the prefix
is colon-free. -/
theorem colon_split {x₁ x₂ r₁ r₂ : List Char} (h₁ : ':' ∉ x₁) (h₂ : ':' ∉ x₂)
    (h : x₁ ++ ':' :: r₁ = x₂ ++ ':' :: r₂) : x₁ = x₂ ∧ r₁ = r₂ := by
  induction x₁ generalizing x₂ with
  | nil =>
    cases x₂ with
    | nil => simpa using h
    | cons c cs =>
      simp only [List.nil_append, List.cons_append, List.cons.injEq] at h
      exact absurd (List.mem_cons.mpr (Or.inl h.1)) h₂
  | cons c cs ih =>
    cases x₂ with
    | nil =>
      simp only [List.cons_append, List.nil_append, List.cons.injEq] at h
      exact absurd (List.mem_cons.mpr (Or.inl h.1.symm)) h₁
    | cons d ds =>
      simp only [List.cons_append, List.cons.injEq] at h
      have h₁' : ':' ∉ cs := fun hc => h₁ (List.mem_cons.mpr (Or.inr hc))
      have h₂' : ':' ∉ ds := fun hc => h₂ (List.mem_cons.mpr (Or.inr hc))
      rcases ih h₁' h₂' h.2 with ⟨he1, he2⟩
      exact ⟨by rw [h.1, he1], he2⟩

theorem createObjectKey_data (a t : String) (i : Int) (n : String) :
    (createObjectKey a t i n).data =
      a.data ++ ':' :: (t.data ++ ':' :: ((toString i).data ++ ':' :: n.data)) := by
  unfold createObjectKey
  simp only [String.data_append]
  simp [List.append_assoc]

/-- Colon-free app ids, types and names make `createObjectKey` injective in
the app id, the type and the name (the components a secondary index key is
derived from). -/
theorem createObjectKey_inj {a₁ t₁ : String} {i₁ : Int} {n₁ : String}
    {a₂ t₂ : String} {i₂ : Int} {n₂ : String}
    (ha₁ : ColonFree a₁) (ht₁ : ColonFree t₁) (ha₂ : ColonFree a₂) (ht₂ : ColonFree t₂)
    (h : createObjectKey a₁ t₁ i₁ n₁ = createObjectKey a₂ t₂ i₂ n₂) :
    a₁ = a₂ ∧ t₁ = t₂ ∧ n₁ = n₂ := by
  have hd : (createObjectKey a₁ t₁ i₁ n₁).data = (createObjectKey a₂ t₂ i₂ n₂).data :=
    congrArg String.data h
  rw [createObjectKey_data, createObjectKey_data] at hd
  rcases colon_split ha₁ ha₂ hd with ⟨hae, hd1⟩
  rcases colon_split ht₁ ht₂ hd1 with ⟨hte, hd2⟩
  rcases colon_split (intToString_colonFree i₁) (intToString_colonFree i₂) hd2 with ⟨_, hd3⟩
  exact ⟨String.ext hae, String.ext hte, String.ext hd3⟩

theorem indexWF_empty : IndexWF ObjectIndex.empty := by
  refine ⟨?_, ?_, ?_, ?_, ?_, ?_, ?_, ?_, ?_, ?_, ?_, ?_, ?_, ?_, ?_, ?_, ?_⟩ <;>
    first
      | exact nodupKeys_nil
      | exact bucketsOk_nil
      | (intro k e h; simp [ObjectIndex.empty, mapGet] at h)
      | (intro w k
         simp [ObjectIndex.empty, bucket, mapGet])

/-- Single-bucket-key membership after `addToIndex`. -/
theorem mem_bucket_addToIndex (idx : JSMap JSSet) (w0 v x w : String) :
    x ∈ bucket (ObjectIndex.addToIndex idx w0 v) w ↔
      (x ∈ bucket idx w ∨ (x = v ∧ w = w0)) := by
  rw [bucket_addToIndex]
  by_cases h : w0 = w
  · subst h
    rw [if_pos rfl, mem_setAdd]
    constructor
    · rintro (hx | hx)
      · exact Or.inl hx
      · exact Or.inr ⟨hx, rfl⟩
    · rintro (hx | ⟨hx, _⟩)
      · exact Or.inl hx
      · exact Or.inr hx
  · rw [if_neg h]
    constructor
    · exact Or.inl
    · rintro (hx | ⟨_, rfl⟩)
      · exact hx
      · exact absurd rfl h

/-- Single-bucket-key membership after `removeFromIndex`. -/
theorem mem_bucket_removeFromIndex {idx : JSMap JSSet} (hn : NodupKeys idx)
    (hb : BucketsOk idx) (w0 v x w : String) :
    x ∈ bucket (ObjectIndex.removeFromIndex idx w0 v) w ↔
      (x ∈ bucket idx w ∧ ¬ (x = v ∧ w = w0)) := by
  rw [bucket_removeFromIndex hn]
  by_cases h : w0 = w
  · subst h
    rw [if_pos rfl, (bucket_nodup hb w0).mem_erase_iff]
    constructor
    · rintro ⟨hxv, hx⟩
      exact ⟨hx, fun hc => hxv hc.1⟩
    · rintro ⟨hx, hnot⟩
      exact ⟨fun hc => hnot ⟨hc, rfl⟩, hx⟩
  · rw [if_neg h]
    constructor
    · intro hx
      exact ⟨hx, fun hc => h hc.2.symm⟩
    · exact And.left

/-- Generic `BucketRel` preservation for an insertion step: the primary map
gets `e` under `key` and the index's membership changed exactly by adding
`key` to the buckets `w` with `P e w`; any bucket previously containing `key`
must already describe `e`. -/
theorem bucketRel_insert {primary : JSMap ObjectIndexEntry} {idx idx' : JSMap JSSet}
    {P : ObjectIndexEntry → String → Prop} (hrel : BucketRel primary idx P)
    (key : String) (e : ObjectIndexEntry)
    (hmem : ∀ x w, x ∈ bucket idx' w ↔ (x ∈ bucket idx w ∨ (x = key ∧ P e w)))
    (hold : ∀ w, key ∈ bucket idx w → P e w) :
    BucketRel (mapSet primary key e) idx' P := by
  intro w k
  rw [hmem]
  constructor
  · rintro (hk | ⟨rfl, hP⟩)
    · by_cases hkey : key = k
      · subst hkey
        exact ⟨e, by rw [mapGet_mapSet, if_pos rfl], hold w hk⟩
      · rcases (hrel w k).mp hk with ⟨eo, hgo, hPo⟩
        exact ⟨eo, by rw [mapGet_mapSet, if_neg hkey]; exact hgo, hPo⟩
    · exact ⟨e, by rw [mapGet_mapSet, if_pos rfl], hP⟩
  · rintro ⟨eo, hgo, hPo⟩
    rw [mapGet_mapSet] at hgo
    by_cases hkey : key = k
    · rw [if_pos hkey] at hgo
      injection hgo with he
      subst he
      subst hkey
      exact Or.inr ⟨rfl, hPo⟩
    · rw [if_neg hkey] at hgo
      exact Or.inl ((hrel w k).mpr ⟨eo, hgo, hPo⟩)

/-- Generic `BucketRel` preservation for a removal step: the entry `e` under
`key` disappears from the primary map and the index's membership changed
exactly by dropping `key` from the buckets `w` with `P e w`. -/
theorem bucketRel_remove {primary : JSMap ObjectIndexEntry} {idx idx' : JSMap JSSet}
    {P : ObjectIndexEntry → String → Prop} (hrel : BucketRel primary idx P)
    (hnodup : NodupKeys primary) (key : String) (e : ObjectIndexEntry)
    (hekey : mapGet primary key = some e)
    (hmem : ∀ x w, x ∈ bucket idx' w ↔ (x ∈ bucket idx w ∧ ¬ (x = key ∧ P e w))) :
    BucketRel (mapDelete primary key) idx' P := by
  intro w k
  rw [hmem]
  constructor
  · rintro ⟨hk, hnot⟩
    rcases (hrel w k).mp hk with ⟨eo, hgo, hPo⟩
    by_cases hkey : k = key
    · subst hkey
      rw [hekey] at hgo
      injection hgo with he
      subst he
      exact absurd ⟨rfl, hPo⟩ hnot
    · refine ⟨eo, ?_, hPo⟩
      rw [mapGet_mapDelete hnodup, if_neg (fun hh => hkey hh.symm)]
      exact hgo
  · rintro ⟨eo, hgo, hPo⟩
    rw [mapGet_mapDelete hnodup] at hgo
    by_cases hkey : key = k
    · rw [if_pos hkey] at hgo
      simp at hgo
    · rw [if_neg hkey] at hgo
      exact ⟨(hrel w k).mpr ⟨eo, hgo, hPo⟩, fun hc => hkey hc.1.symm⟩

theorem indexObject_def (s : ObjectIndex) (app : BCAppInfo) (t : String)
    (m : ObjectMetadataInput) (now : Nat) :
    s.indexObject app t m now =
      { index :=
          mapSet s.index (createObjectKey app.id t m.objectId m.name) (mkIndexEntry app t m now)
        typeIndex :=
          ObjectIndex.addToIndex s.typeIndex t (createObjectKey app.id t m.objectId m.name)
        nameIndex :=
          ObjectIndex.addToIndex s.nameIndex (jsToLower m.name)
            (createObjectKey app.id t m.objectId m.name)
        appIndex :=
          ObjectIndex.addToIndex s.appIndex app.id (createObjectKey app.id t m.objectId m.name)
        keywordIndex :=
          (extractKeywords m.name t).foldl
            (fun idx kw =>
              ObjectIndex.addToIndex idx (jsToLower kw) (createObjectKey app.id t m.objectId m.name))
            s.keywordIndex
        dependencyIndex :=
          (extractDependencies app t m).foldl
            (fun idx d =>
              ObjectIndex.addToIndex idx d (createObjectKey app.id t m.objectId m.name))
            s.dependencyIndex } :=
  rfl

theorem indexObject_WF {s : ObjectIndex} (h : IndexWF s) {app : BCAppInfo} {t : String}
    {m : ObjectMetadataInput} {now : Nat}
    (hA : ColonFree app.id) (hT : ColonFree t) (hN : ColonFree m.name) :
    IndexWF (s.indexObject app t m now) := by
  rw [indexObject_def]
  have hold_attr : ∀ eo, mapGet s.index (createObjectKey app.id t m.objectId m.name) = some eo →
      eo.appId = app.id ∧ eo.objectType = t ∧ eo.objectName = m.name := by
    intro eo hgo
    rcases h.entries_ok _ eo hgo with ⟨hk, hca, hct, hcn, _, _⟩
    exact createObjectKey_inj hca hct hA hT hk.symm
  have hmem_type : ∀ x w,
      x ∈ bucket (ObjectIndex.addToIndex s.typeIndex t (createObjectKey app.id t m.objectId m.name)) w ↔
        (x ∈ bucket s.typeIndex w ∨
          (x = createObjectKey app.id t m.objectId m.name ∧ typeP (mkIndexEntry app t m now) w)) := by
    intro x w
    rw [mem_bucket_addToIndex]
    exact or_congr Iff.rfl (and_congr Iff.rfl ⟨Eq.symm, Eq.symm⟩)
  have hmem_name : ∀ x w,
      x ∈ bucket (ObjectIndex.addToIndex s.nameIndex (jsToLower m.name)
            (createObjectKey app.id t m.objectId m.name)) w ↔
        (x ∈ bucket s.nameIndex w ∨
          (x = createObjectKey app.id t m.objectId m.name ∧ nameP (mkIndexEntry app t m now) w)) := by
    intro x w
    rw [mem_bucket_addToIndex]
    exact or_congr Iff.rfl (and_congr Iff.rfl ⟨Eq.symm, Eq.symm⟩)
  have hmem_app : ∀ x w,
      x ∈ bucket (ObjectIndex.addToIndex s.appIndex app.id
            (createObjectKey app.id t m.objectId m.name)) w ↔
        (x ∈ bucket s.appIndex w ∨
          (x = createObjectKey app.id t m.objectId m.name ∧ appP (mkIndexEntry app t m now) w)) := by
    intro x w
    rw [mem_bucket_addToIndex]
    exact or_congr Iff.rfl (and_congr Iff.rfl ⟨Eq.symm, Eq.symm⟩)
  have hkwfold :
      (extractKeywords m.name t).foldl
          (fun idx kw =>
            ObjectIndex.addToIndex idx (jsToLower kw) (createObjectKey app.id t m.objectId m.name))
          s.keywordIndex =
        ((extractKeywords m.name t).map jsToLower).foldl
          (fun idx u => ObjectIndex.addToIndex idx u (createObjectKey app.id t m.objectId m.name))
          s.keywordIndex := by
    rw [List.foldl_map]
  have hmem_kw : ∀ x w,
      x ∈ bucket ((extractKeywords m.name t).foldl
            (fun idx kw =>
              ObjectIndex.addToIndex idx (jsToLower kw)
                (createObjectKey app.id t m.objectId m.name))
            s.keywordIndex) w ↔
        (x ∈ bucket s.keywordIndex w ∨
          (x = createObjectKey app.id t m.objectId m.name ∧ kwP (mkIndexEntry app t m now) w)) := by
    intro x w
    rw [hkwfold, mem_bucket_addFold]
    exact or_congr Iff.rfl Iff.rfl
  have hmem_dep : ∀ x w,
      x ∈ bucket ((extractDependencies app t m).foldl
            (fun idx d =>
              ObjectIndex.addToIndex idx d (createObjectKey app.id t m.objectId m.name))
            s.dependencyIndex) w ↔
        (x ∈ bucket s.dependencyIndex w ∨
          (x = createObjectKey app.id t m.objectId m.name ∧ depP (mkIndexEntry app t m now) w)) := by
    intro x w
    show x ∈ bucket s.dependencyIndex w ↔ _
    constructor
    · exact Or.inl
    · rintro (hx | ⟨_, hP⟩)
      · exact hx
      · exact absurd hP (by simp [depP, mkIndexEntry, extractDependencies])
  have hold_type : ∀ w, createObjectKey app.id t m.objectId m.name ∈ bucket s.typeIndex w →
      typeP (mkIndexEntry app t m now) w := by
    intro w hk
    rcases (h.rel_type w _).mp hk with ⟨eo, hgo, hPo⟩
    rcases hold_attr eo hgo with ⟨_, hto, _⟩
    show t = w
    rw [← hto]
    exact hPo
  have hold_name : ∀ w, createObjectKey app.id t m.objectId m.name ∈ bucket s.nameIndex w →
      nameP (mkIndexEntry app t m now) w := by
    intro w hk
    rcases (h.rel_name w _).mp hk with ⟨eo, hgo, hPo⟩
    rcases hold_attr eo hgo with ⟨_, _, hno⟩
    show jsToLower m.name = w
    rw [← hno]
    exact hPo
  have hold_app : ∀ w, createObjectKey app.id t m.objectId m.name ∈ bucket s.appIndex w →
      appP (mkIndexEntry app t m now) w := by
    intro w hk
    rcases (h.rel_app w _).mp hk with ⟨eo, hgo, hPo⟩
    rcases hold_attr eo hgo with ⟨hao, _, _⟩
    show app.id = w
    rw [← hao]
    exact hPo
  have hold_kw : ∀ w, createObjectKey app.id t m.objectId m.name ∈ bucket s.keywordIndex w →
      kwP (mkIndexEntry app t m now) w := by
    intro w hk
    rcases (h.rel_kw w _).mp hk with ⟨eo, hgo, hPo⟩
    rcases hold_attr eo hgo with ⟨_, hto, hno⟩
    rcases h.entries_ok _ eo hgo with ⟨_, _, _, _, hkws, _⟩
    show w ∈ (extractKeywords m.name t).map jsToLower
    unfold kwP at hPo
    rw [hkws, hno, hto] at hPo
    exact hPo
  have hold_dep : ∀ w, createObjectKey app.id t m.objectId m.name ∈ bucket s.dependencyIndex w →
      depP (mkIndexEntry app t m now) w := by
    intro w hk
    rcases (h.rel_dep w _).mp hk with ⟨eo, hgo, hPo⟩
    rcases h.entries_ok _ eo hgo with ⟨_, _, _, _, _, hdeps⟩
    unfold depP at hPo
    rw [hdeps] at hPo
    simp at hPo
  refine ⟨?_, ?_, ?_, ?_, ?_, ?_, ?_, ?_, ?_, ?_, ?_, ?_, ?_, ?_, ?_, ?_, ?_⟩
  · exact nodupKeys_mapSet h.nodup_index _ _
  · exact nodupKeys_addToIndex h.nodup_type _ _
  · exact nodupKeys_addToIndex h.nodup_name _ _
  · exact nodupKeys_addToIndex h.nodup_app _ _
  · show NodupKeys ((extractKeywords m.name t).foldl _ s.keywordIndex)
    rw [hkwfold]
    exact nodupKeys_addFold _ h.nodup_kw _
  · exact h.nodup_dep
  · exact bucketsOk_addToIndex h.ok_type _ _
  · exact bucketsOk_addToIndex h.ok_name _ _
  · exact bucketsOk_addToIndex h.ok_app _ _
  · show BucketsOk ((extractKeywords m.name t).foldl _ s.keywordIndex)
    rw [hkwfold]
    exact bucketsOk_addFold _ h.ok_kw _
  · exact h.ok_dep
  · intro k e' hget
    rw [mapGet_mapSet] at hget
    by_cases hkey : createObjectKey app.id t m.objectId m.name = k
    · rw [if_pos hkey] at hget
      injection hget with he
      subst he
      subst hkey
      exact ⟨rfl, hA, hT, hN, rfl, rfl⟩
    · rw [if_neg hkey] at hget
      exact h.entries_ok k e' hget
  · exact bucketRel_insert h.rel_type _ _ hmem_type hold_type
  · exact bucketRel_insert h.rel_name _ _ hmem_name hold_name
  · exact bucketRel_insert h.rel_app _ _ hmem_app hold_app
  · exact bucketRel_insert h.rel_kw _ _ hmem_kw hold_kw
  · exact bucketRel_insert h.rel_dep _ _ hmem_dep hold_dep

theorem removeOne_WF {s : ObjectIndex} (h : IndexWF s) (key : String) :
    IndexWF (s.removeOne key) := by
  rcases he : mapGet s.index key with _ | e
  · simpa only [ObjectIndex.removeOne, he] using h
  · simp only [ObjectIndex.removeOne, he]
    have hkwfold :
        e.keywords.foldl (fun idx kw => ObjectIndex.removeFromIndex idx (jsToLower kw) key)
            s.keywordIndex =
          (e.keywords.map jsToLower).foldl
            (fun idx u => ObjectIndex.removeFromIndex idx u key) s.keywordIndex := by
      rw [List.foldl_map]
    have hmem_type : ∀ x w,
        x ∈ bucket (ObjectIndex.removeFromIndex s.typeIndex e.objectType key) w ↔
          (x ∈ bucket s.typeIndex w ∧ ¬ (x = key ∧ typeP e w)) := by
      intro x w
      rw [mem_bucket_removeFromIndex h.nodup_type h.ok_type]
      exact and_congr Iff.rfl (not_congr (and_congr Iff.rfl ⟨Eq.symm, Eq.symm⟩))
    have hmem_name : ∀ x w,
        x ∈ bucket (ObjectIndex.removeFromIndex s.nameIndex (jsToLower e.objectName) key) w ↔
          (x ∈ bucket s.nameIndex w ∧ ¬ (x = key ∧ nameP e w)) := by
      intro x w
      rw [mem_bucket_removeFromIndex h.nodup_name h.ok_name]
      exact and_congr Iff.rfl (not_congr (and_congr Iff.rfl ⟨Eq.symm, Eq.symm⟩))
    have hmem_app : ∀ x w,
        x ∈ bucket (ObjectIndex.removeFromIndex s.appIndex e.appId key) w ↔
          (x ∈ bucket s.appIndex w ∧ ¬ (x = key ∧ appP e w)) := by
      intro x w
      rw [mem_bucket_removeFromIndex h.nodup_app h.ok_app]
      exact and_congr Iff.rfl (not_congr (and_congr Iff.rfl ⟨Eq.symm, Eq.symm⟩))
    have hmem_kw : ∀ x w,
        x ∈ bucket (e.keywords.foldl
              (fun idx kw => ObjectIndex.removeFromIndex idx (jsToLower kw) key)
              s.keywordIndex) w ↔
          (x ∈ bucket s.keywordIndex w ∧ ¬ (x = key ∧ kwP e w)) := by
      intro x w
      rw [hkwfold, mem_bucket_removeFold _ h.nodup_kw h.ok_kw]
      exact Iff.rfl
    have hmem_dep : ∀ x w,
        x ∈ bucket (e.dependencies.foldl
              (fun idx d => ObjectIndex.removeFromIndex idx d key) s.dependencyIndex) w ↔
          (x ∈ bucket s.dependencyIndex w ∧ ¬ (x = key ∧ depP e w)) := by
      intro x w
      rw [mem_bucket_removeFold _ h.nodup_dep h.ok_dep]
      exact Iff.rfl
    refine ⟨?_, ?_, ?_, ?_, ?_, ?_, ?_, ?_, ?_, ?_, ?_, ?_, ?_, ?_, ?_, ?_, ?_⟩
    · exact nodupKeys_mapDelete h.nodup_index _
    · exact nodupKeys_removeFromIndex h.nodup_type _ _
    · exact nodupKeys_removeFromIndex h.nodup_name _ _
    · exact nodupKeys_removeFromIndex h.nodup_app _ _
    · show NodupKeys (e.keywords.foldl _ s.keywordIndex)
      rw [hkwfold]
      exact nodupKeys_removeFold _ h.nodup_kw _
    · exact nodupKeys_removeFold _ h.nodup_dep _
    · exact bucketsOk_removeFromIndex h.nodup_type h.ok_type _ _
    · exact bucketsOk_removeFromIndex h.nodup_name h.ok_name _ _
    · exact bucketsOk_removeFromIndex h.nodup_app h.ok_app _ _
    · show BucketsOk (e.keywords.foldl _ s.keywordIndex)
      rw [hkwfold]
      exact bucketsOk_removeFold _ h.nodup_kw h.ok_kw _
    · exact bucketsOk_removeFold _ h.nodup_dep h.ok_dep _
    · intro k e' hget
      rw [mapGet_mapDelete h.nodup_index] at hget
      by_cases hkey : key = k
      · rw [if_pos hkey] at hget
        simp at hget
      · rw [if_neg hkey] at hget
        exact h.entries_ok k e' hget
    · exact bucketRel_remove h.rel_type h.nodup_index key e he hmem_type
    · exact bucketRel_remove h.rel_name h.nodup_index key e he hmem_name
    · exact bucketRel_remove h.rel_app h.nodup_index key e he hmem_app
    · exact bucketRel_remove h.rel_kw h.nodup_index key e he hmem_kw
    · exact bucketRel_remove h.rel_dep h.nodup_index key e he hmem_dep

theorem removeOne_index_get {s : ObjectIndex} (h : NodupKeys s.index) (key k : String) :
    mapGet (s.removeOne key).index k = if key = k then none else mapGet s.index k := by
  rcases he : mapGet s.index key with _ | e
  · simp only [ObjectIndex.removeOne, he]
    by_cases hkey : key = k
    · rw [if_pos hkey, ← hkey, he]
    · rw [if_neg hkey]
  · simp only [ObjectIndex.removeOne, he]
    exact mapGet_mapDelete h key k

theorem foldRemoveOne_WF {s : ObjectIndex} (h : IndexWF s) (keys : List String) :
    IndexWF (keys.foldl ObjectIndex.removeOne s) := by
  induction keys generalizing s with
  | nil => exact h
  | cons k rest ih => exact ih (removeOne_WF h k)

theorem removeApp_WF {s : ObjectIndex} (h : IndexWF s) (appId : String) :
    IndexWF (s.removeApp appId) := by
  unfold ObjectIndex.removeApp
  rcases mapGet s.appIndex appId with _ | keys
  · exact h
  · exact foldRemoveOne_WF h keys

theorem clear_WF (s : ObjectIndex) : IndexWF s.clear :=
  indexWF_empty

theorem bcObjectTypes_colonFree : ∀ t ∈ bcObjectTypes, ColonFree t := by
  decide

theorem foldIndexObject_WF {app : BCAppInfo} {t : String} {now : Nat}
    (hA : ColonFree app.id) (hT : ColonFree t) (ms : List ObjectMetadataInput)
    (hms : ∀ m ∈ ms, ColonFree m.name) {s : ObjectIndex} (h : IndexWF s) :
    IndexWF (ms.foldl (fun s m => s.indexObject app t m now) s) := by
  induction ms generalizing s with
  | nil => exact h
  | cons m rest ih =>
    simp only [List.foldl_cons]
    exact ih (fun m2 hm2 => hms m2 (List.mem_cons.mpr (Or.inr hm2)))
      (indexObject_WF h hA hT (hms m (List.mem_cons.mpr (Or.inl rfl))))

theorem indexApp_WF {s : ObjectIndex} (h : IndexWF s) {app : BCAppInfo}
    {loader : String → String → List ObjectMetadataInput} {now : Nat}
    (hA : ColonFree app.id)
    (hL : ∀ t ∈ bcObjectTypes, ∀ m ∈ loader app.filePath t, ColonFree m.name) :
    IndexWF (s.indexApp app loader now) := by
  unfold ObjectIndex.indexApp
  have main : ∀ (ts : List String), (∀ t ∈ ts, ColonFree t) →
      (∀ t ∈ ts, ∀ m ∈ loader app.filePath t, ColonFree m.name) →
      ∀ s : ObjectIndex, IndexWF s →
        IndexWF (ts.foldl
          (fun s objectType =>
            (loader app.filePath objectType).foldl
              (fun s m => s.indexObject app objectType m now) s) s) := by
    intro ts
    induction ts with
    | nil => exact fun _ _ s hs => hs
    | cons t rest ih =>
      intro hts hms s hs
      simp only [List.foldl_cons]
      refine ih (fun u hu => hts u (List.mem_cons.mpr (Or.inr hu)))
        (fun u hu => hms u (List.mem_cons.mpr (Or.inr hu))) _ ?_
      exact foldIndexObject_WF hA (hts t (List.mem_cons.mpr (Or.inl rfl))) _
        (hms t (List.mem_cons.mpr (Or.inl rfl))) hs
  exact main bcObjectTypes bcObjectTypes_colonFree hL s h

theorem cleanReachable_WF {s : ObjectIndex} (h : ObjectIndex.CleanReachable s) : IndexWF s := by
  induction h with
  | empty => exact indexWF_empty
  | indexApp app loader now _ hA hL ih => exact indexApp_WF ih hA hL
  | removeApp appId _ ih => exact removeApp_WF ih appId
  | clear _ ih => exact clear_WF _

theorem filterMap_congr_mem {α β : Type} {l : List α} {f g : α → Option β}
    (h : ∀ a ∈ l, f a = g a) : l.filterMap f = l.filterMap g := by
  induction l with
  | nil => rfl
  | cons a rest ih =>
    rw [List.filterMap_cons, List.filterMap_cons,
      h a (List.mem_cons.mpr (Or.inl rfl)),
      ih (fun b hb => h b (List.mem_cons.mpr (Or.inr hb)))]

theorem mapGet_of_mem {α : Type} {m : JSMap α} (hm : NodupKeys m) {kv : String × α}
    (h : kv ∈ m) : mapGet m kv.1 = some kv.2 := by
  induction m with
  | nil => simp at h
  | cons kv0 rest ih =>
    rcases nodupKeys_cons_iff.mp hm with ⟨hk0, hrest⟩
    rcases List.mem_cons.mp h with h1 | h1
    · subst h1
      simp [mapGet]
    · have hne : kv0.1 ≠ kv.1 := by
        intro heq
        exact hk0 (heq ▸ List.mem_map.mpr ⟨kv, h1, rfl⟩)
      obtain ⟨k0, v0⟩ := kv0
      simp only [mapGet, if_neg hne]
      exact ih hrest h1

/-- Unfolding the results construction of `search`: filtering the key list
and looking entries up is filtering the primary list itself. -/
theorem keysFilterMap_eq {m : JSMap ObjectIndexEntry} (hm : NodupKeys m)
    (p : String → Bool) (q : ObjectIndexEntry → Bool) :
    ((mapKeys m).filter p).filterMap (fun key =>
        match mapGet m key with
        | none => none
        | some e => if q e then some e else none) =
      (m.filter (fun kv => p kv.1 && q kv.2)).map Prod.snd := by
  induction m with
  | nil => simp [mapKeys]
  | cons kv0 rest ih =>
    obtain ⟨k0, v0⟩ := kv0
    rcases nodupKeys_cons_iff.mp hm with ⟨hk0, hrest⟩
    have hkeys : mapKeys ((k0, v0) :: rest) = k0 :: mapKeys rest := rfl
    have htail :
        ((mapKeys rest).filter p).filterMap (fun key =>
            match mapGet ((k0, v0) :: rest) key with
            | none => none
            | some e => if q e then some e else none) =
          (rest.filter (fun kv => p kv.1 && q kv.2)).map Prod.snd := by
      rw [← ih hrest]
      apply filterMap_congr_mem
      intro k hk
      have hkmem : k ∈ mapKeys rest := (List.mem_filter.mp hk).1
      have hne : ¬ (k0 = k) := fun heq => hk0 (heq ▸ hkmem)
      simp only [mapGet, if_neg hne]
    have hhead : (match mapGet ((k0, v0) :: rest) k0 with
        | none => none
        | some e => if q e then some e else none) =
          if q v0 then some v0 else none := by
      simp [mapGet]
    rw [hkeys, List.filter_cons]
    by_cases hp : p k0
    · rw [if_pos hp, List.filterMap_cons, hhead, htail]
      by_cases hq : q v0
      · rw [if_pos hq]
        simp [List.filter_cons, hp, hq]
      · rw [if_neg hq]
        simp [List.filter_cons, hp, hq]
    · rw [if_neg (by simp [hp]), htail]
      simp [List.filter_cons, hp]

theorem mem_foldl_setAdd (l : List String) (acc : JSSet) (x : String) :
    x ∈ l.foldl setAdd acc ↔ x ∈ acc ∨ x ∈ l := by
  induction l generalizing acc with
  | nil => simp
  | cons a rest ih =>
    simp only [List.foldl_cons]
    rw [ih, mem_setAdd]
    constructor
    · rintro ((hx | hx) | hx)
      · exact Or.inl hx
      · exact Or.inr (List.mem_cons.mpr (Or.inl hx))
      · exact Or.inr (List.mem_cons.mpr (Or.inr hx))
    · rintro (hx | hx)
      · exact Or.inl (Or.inl hx)
      · rcases List.mem_cons.mp hx with h1 | h1
        · exact Or.inl (Or.inr h1)
        · exact Or.inr h1

theorem mem_unionBuckets {idx : JSMap JSSet} {ks : List String} {x : String} :
    x ∈ unionBuckets idx ks ↔ ∃ u ∈ ks, x ∈ bucket idx u := by
  unfold unionBuckets
  have main : ∀ (ks : List String) (acc : JSSet),
      x ∈ ks.foldl (fun acc k => ((mapGet idx k).getD []).foldl setAdd acc) acc ↔
        x ∈ acc ∨ ∃ u ∈ ks, x ∈ bucket idx u := by
    intro ks
    induction ks with
    | nil => simp
    | cons u rest ih =>
      intro acc
      simp only [List.foldl_cons]
      rw [ih, mem_foldl_setAdd]
      unfold bucket
      constructor
      · rintro ((hx | hx) | hx)
        · exact Or.inl hx
        · exact Or.inr ⟨u, List.mem_cons.mpr (Or.inl rfl), hx⟩
        · rcases hx with ⟨u2, hu2, hx2⟩
          exact Or.inr ⟨u2, List.mem_cons.mpr (Or.inr hu2), hx2⟩
      · rintro (hx | ⟨u2, hu2, hx2⟩)
        · exact Or.inl (Or.inl hx)
        · rcases List.mem_cons.mp hu2 with h1 | h1
          · subst h1
            exact Or.inl (Or.inr hx2)
          · exact Or.inr ⟨u2, h1, hx2⟩
  rw [main ks []]
  simp

theorem applyDim_filter {β : Type} (l : List String) (p : String → Bool)
    (dim : Option (List β)) (ms : List β → JSSet) :
    applyDim (l.filter p) dim ms =
      l.filter (fun k => p k && dimApplies dim (fun d => (ms d).contains k)) := by
  cases dim with
  | none =>
    simp [applyDim, dimApplies]
  | some d =>
    by_cases hd : d.isEmpty
    · simp [applyDim, dimApplies, hd]
    · simp only [applyDim, dimApplies, hd, if_false]
      unfold intersectSets
      rw [List.filter_filter]
      apply List.filter_congr
      intro x _
      simp [Bool.and_comm]

theorem bool_eq_of_iff {a b : Bool} (h : (a = true) ↔ (b = true)) : a = b := by
  cases a <;> cases b <;> simp_all

theorem dimApplies_congr {β : Type} (dim : Option (List β)) {t1 t2 : List β → Bool}
    (h : ∀ l, t1 l = t2 l) : dimApplies dim t1 = dimApplies dim t2 := by
  cases dim with
  | none => rfl
  | some l => simp [dimApplies, h l]

theorem appDim_eq {s : ObjectIndex} (h : IndexWF s) {k : String} {e : ObjectIndexEntry}
    (he : mapGet s.index k = some e) (l : List String) :
    (unionBuckets s.appIndex l).contains k = l.contains e.appId := by
  apply bool_eq_of_iff
  rw [List.elem_iff, List.elem_iff, mem_unionBuckets]
  constructor
  · rintro ⟨u, hu, hk⟩
    rcases (h.rel_app u k).mp hk with ⟨e2, hg2, hP2⟩
    rw [he] at hg2
    injection hg2 with hh
    subst hh
    rw [hP2]
    exact hu
  · intro hmem
    exact ⟨e.appId, hmem, (h.rel_app e.appId k).mpr ⟨e, he, rfl⟩⟩

theorem typeDim_eq {s : ObjectIndex} (h : IndexWF s) {k : String} {e : ObjectIndexEntry}
    (he : mapGet s.index k = some e) (l : List String) :
    (unionBuckets s.typeIndex l).contains k = l.contains e.objectType := by
  apply bool_eq_of_iff
  rw [List.elem_iff, List.elem_iff, mem_unionBuckets]
  constructor
  · rintro ⟨u, hu, hk⟩
    rcases (h.rel_type u k).mp hk with ⟨e2, hg2, hP2⟩
    rw [he] at hg2
    injection hg2 with hh
    subst hh
    rw [hP2]
    exact hu
  · intro hmem
    exact ⟨e.objectType, hmem, (h.rel_type e.objectType k).mpr ⟨e, he, rfl⟩⟩

theorem nameDim_eq {s : ObjectIndex} (h : IndexWF s) {k : String} {e : ObjectIndexEntry}
    (he : mapGet s.index k = some e) (l : List String) :
    (unionBuckets s.nameIndex (l.map jsToLower)).contains k =
      (l.map jsToLower).contains (jsToLower e.objectName) := by
  apply bool_eq_of_iff
  rw [List.elem_iff, List.elem_iff, mem_unionBuckets]
  constructor
  · rintro ⟨u, hu, hk⟩
    rcases (h.rel_name u k).mp hk with ⟨e2, hg2, hP2⟩
    rw [he] at hg2
    injection hg2 with hh
    subst hh
    rw [← hP2] at hu
    exact hu
  · intro hmem
    exact ⟨jsToLower e.objectName, hmem, (h.rel_name (jsToLower e.objectName) k).mpr ⟨e, he, rfl⟩⟩

theorem kwDim_eq {s : ObjectIndex} (h : IndexWF s) {k : String} {e : ObjectIndexEntry}
    (he : mapGet s.index k = some e) (l : List String) :
    (unionBuckets s.keywordIndex (l.map jsToLower)).contains k =
      l.any (fun w => e.keywords.any (fun kw => jsToLower kw = jsToLower w)) := by
  apply bool_eq_of_iff
  rw [List.elem_iff, mem_unionBuckets, List.any_eq_true]
  constructor
  · rintro ⟨u, hu, hk⟩
    rcases (h.rel_kw u k).mp hk with ⟨e2, hg2, hP2⟩
    rw [he] at hg2
    injection hg2 with hh
    subst hh
    rcases List.mem_map.mp hu with ⟨w, hw, hwu⟩
    refine ⟨w, hw, ?_⟩
    rw [List.any_eq_true]
    unfold kwP at hP2
    rcases List.mem_map.mp hP2 with ⟨kw, hkw, hkwu⟩
    exact ⟨kw, hkw, by simp [hkwu, hwu]⟩
  · rintro ⟨w, hw, hany⟩
    rw [List.any_eq_true] at hany
    rcases hany with ⟨kw, hkw, heq⟩
    have heq2 : jsToLower kw = jsToLower w := by simpa using heq
    refine ⟨jsToLower w, List.mem_map.mpr ⟨w, hw, rfl⟩, ?_⟩
    refine (h.rel_kw (jsToLower w) k).mpr ⟨e, he, ?_⟩
    unfold kwP
    exact List.mem_map.mpr ⟨kw, hkw, heq2⟩

theorem minId_eq (dim : Option Int) (x : Int) :
    (match dim with | some mn => !(decide (x < mn)) | none => true) =
      (match dim with | some mn => decide (mn ≤ x) | none => true) := by
  cases dim with
  | none => rfl
  | some mn =>
    have hgoal : (!(decide (x < mn))) = (decide (mn ≤ x)) := by
      rw [← decide_not]
      exact decide_eq_decide.mpr not_lt
    simpa using hgoal

theorem maxId_eq (dim : Option Int) (x : Int) :
    (match dim with | some mx => !(decide (mx < x)) | none => true) =
      (match dim with | some mx => decide (x ≤ mx) | none => true) := by
  cases dim with
  | none => rfl
  | some mx =>
    have hgoal : (!(decide (mx < x))) = (decide (x ≤ mx)) := by
      rw [← decide_not]
      exact decide_eq_decide.mpr not_lt
    simpa using hgoal

/-- The scalar filter block of `search` is exactly the scalar suffix of the
naive predicate. -/
theorem scalarFilters_eq (f : SearchFilter) (e : ObjectIndexEntry) :
    scalarFilters f e =
      (dimApplies f.objectIds (fun l => l.contains e.objectId) &&
        ((match f.minId with | some mn => decide (mn ≤ e.objectId) | none => true) &&
          ((match f.maxId with | some mx => decide (e.objectId ≤ mx) | none => true) &&
            (dimApplies f.namespaces (fun l => l.contains e.nspace) &&
              (match f.properties with
               | some props => props.all (fun p => mapGet e.properties p.1 = some p.2)
               | none => true))))) := by
  unfold scalarFilters
  rw [← minId_eq f.minId e.objectId, ← maxId_eq f.maxId e.objectId]
  simp only [Bool.and_assoc]
  cases f.objectIds <;> cases f.namespaces <;> rfl

/-- Under the well-formedness invariant, `search` is exactly the naive
predicate scan followed by the comparator sort. -/
theorem search_eq_sorted_naive {s : ObjectIndex} (h : IndexWF s) (f : SearchFilter) :
    s.search f = List.insertionSort searchLE (naiveSearch s f) := by
  simp only [ObjectIndex.search]
  rw [show mapKeys s.index = (mapKeys s.index).filter (fun _ => true) by simp]
  rw [applyDim_filter, applyDim_filter, applyDim_filter, applyDim_filter]
  rw [keysFilterMap_eq h.nodup_index]
  unfold naiveSearch
  rw [List.filter_map]
  congr 1
  congr 1
  apply List.filter_congr
  intro kv hkv
  have he := mapGet_of_mem h.nodup_index hkv
  obtain ⟨k, e⟩ := kv
  simp only [Function.comp]
  rw [dimApplies_congr f.appIds (fun l => appDim_eq h he l)]
  rw [dimApplies_congr f.objectTypes (fun l => typeDim_eq h he l)]
  rw [dimApplies_congr f.objectNames (fun l => nameDim_eq h he l)]
  rw [dimApplies_congr f.keywords (fun l => kwDim_eq h he l)]
  rw [scalarFilters_eq]
  unfold matchesFilter
  simp only [Bool.true_and, Bool.and_assoc]

theorem searchLE_total : ∀ a b : ObjectIndexEntry, searchLE a b ∨ searchLE b a := by
  intro a b
  rcases lt_trichotomy a.objectType b.objectType with h | h | h
  · exact Or.inl (Or.inl h)
  · rcases lt_trichotomy a.objectId b.objectId with h2 | h2 | h2
    · exact Or.inl (Or.inr ⟨h, Or.inl h2⟩)
    · rcases le_total a.objectName b.objectName with h3 | h3
      · exact Or.inl (Or.inr ⟨h, Or.inr ⟨h2, h3⟩⟩)
      · exact Or.inr (Or.inr ⟨h.symm, Or.inr ⟨h2.symm, h3⟩⟩)
    · exact Or.inr (Or.inr ⟨h.symm, Or.inl h2⟩)
  · exact Or.inr (Or.inl h)

theorem searchLE_trans : ∀ a b c : ObjectIndexEntry,
    searchLE a b → searchLE b c → searchLE a c := by
  intro a b c hab hbc
  rcases hab with h1 | ⟨h1, h1r⟩
  · rcases hbc with h2 | ⟨h2, _⟩
    · exact Or.inl (lt_trans h1 h2)
    · exact Or.inl (h2 ▸ h1)
  · rcases hbc with h2 | ⟨h2, h2r⟩
    · exact Or.inl (h1 ▸ h2)
    · refine Or.inr ⟨h1.trans h2, ?_⟩
      rcases h1r with h3 | ⟨h3, h3r⟩
      · rcases h2r with h4 | ⟨h4, _⟩
        · exact Or.inl (lt_trans h3 h4)
        · exact Or.inl (h4 ▸ h3)
      · rcases h2r with h4 | ⟨h4, h4r⟩
        · exact Or.inl (h3 ▸ h4)
        · exact Or.inr ⟨h3.trans h4, le_trans h3r h4r⟩

theorem search_sorted {s : ObjectIndex} (h : IndexWF s) (f : SearchFilter) :
    List.Sorted searchLE (s.search f) := by
  rw [search_eq_sorted_naive h f]
  exact @List.sorted_insertionSort _ searchLE _ ⟨searchLE_total⟩ ⟨searchLE_trans⟩ _

theorem search_perm_naive {s : ObjectIndex} (h : IndexWF s) (f : SearchFilter) :
    (s.search f).Perm (naiveSearch s f) := by
  rw [search_eq_sorted_naive h f]
  exact List.perm_insertionSort _ _

/-! ## `removeApp` purges every entry of the removed app -/

theorem foldRemoveOne_no_appId {C : String} :
    ∀ (keys : List String) (s : ObjectIndex), IndexWF s →
      (∀ k e, mapGet s.index k = some e → e.appId = C → k ∈ keys) →
      ∀ k e, mapGet (keys.foldl ObjectIndex.removeOne s).index k = some e → e.appId ≠ C := by
  intro keys
  induction keys with
  | nil =>
    intro s _ hkeys k e hget hC
    simpa using hkeys k e hget hC
  | cons k0 rest ih =>
    intro s hWF hkeys
    simp only [List.foldl_cons]
    apply ih (s.removeOne k0) (removeOne_WF hWF k0)
    intro k e hget hC
    rw [removeOne_index_get hWF.nodup_index] at hget
    by_cases hk : k0 = k
    · rw [if_pos hk] at hget
      simp at hget
    · rw [if_neg hk] at hget
      rcases List.mem_cons.mp (hkeys k e hget hC) with h1 | h1
      · exact absurd h1.symm hk
      · exact h1

theorem removeApp_no_appId {s : ObjectIndex} (h : IndexWF s) (C : String) :
    ∀ k e, mapGet (s.removeApp C).index k = some e → e.appId ≠ C := by
  unfold ObjectIndex.removeApp
  rcases hb : mapGet s.appIndex C with _ | keys
  · intro k e hget hC
    have hmem : k ∈ bucket s.appIndex C := (h.rel_app C k).mpr ⟨e, hget, hC⟩
    unfold bucket at hmem
    rw [hb] at hmem
    simp at hmem
  · apply foldRemoveOne_no_appId keys s h
    intro k e hget hC
    have hmem : k ∈ bucket s.appIndex C := (h.rel_app C k).mpr ⟨e, hget, hC⟩
    unfold bucket at hmem
    rw [hb] at hmem
    simpa using hmem

/-! ## Claim C1 -/

/-- C1, counterexample: the claim "for every reachable ObjectIndex state and
every filter, `search` returns exactly what the naive predicate scan returns
(sorted)" is false at the reachable state `cexState`: colliding `:`-joined
object keys let `search {appIds := [a]}` return the surviving entry of app
`a:table:1:x`, while the naive scan of the primary entries returns nothing. -/
theorem search_naive_scan_counterexample :
    ObjectIndex.Reachable cexState ∧
      ¬ ((cexState.search cexFilter).Perm (naiveSearch cexState cexFilter)) := by
  constructor
  · exact .indexApp _ _ _ (.indexApp _ _ _ .empty)
  · decide

/-- C1 (amended): for every ObjectIndex state reachable by
`indexApp`/`removeApp`/`clear` with colon-free app ids and object names (so
that object keys of distinct objects cannot collide) and every filter,
`search` returns exactly the entries the naive predicate scan of all
primary-index entries returns — every present dimension conjunctive, empty
arrays no-ops — and the result is sorted by object type, then id, then
name. -/
theorem search_eq_naive_scan_sorted {s : ObjectIndex}
    (hs : ObjectIndex.CleanReachable s) (f : SearchFilter) :
    (s.search f).Perm (naiveSearch s f) ∧ List.Sorted searchLE (s.search f) :=
  ⟨search_perm_naive (cleanReachable_WF hs) f, search_sorted (cleanReachable_WF hs) f⟩

/-- Witness for C1: the amended theorem applied to the concrete clean state
`wState` and filter `wFilter`. -/
theorem search_eq_naive_scan_sorted_witness :
    (wState.search wFilter).Perm (naiveSearch wState wFilter) ∧
      List.Sorted searchLE (wState.search wFilter) :=
  search_eq_naive_scan_sorted
    (.indexApp cexApp1 cexLoader2 0 .empty (by decide) (by decide)) wFilter

/-! ## Claim C9 -/

/-- C9, counterexample: in the reachable state `cexRemoved` (index the
colliding apps, then remove app `a:table:1:x`), the app-index bucket `a`
still holds the key `a:table:1:x:table:1:x` although the primary map no
longer has it — a dangling secondary-index reference. -/
theorem dangling_secondary_key_counterexample :
    ObjectIndex.Reachable cexRemoved ∧
      ("a:table:1:x:table:1:x") ∈ bucket cexRemoved.appIndex "a" ∧
      mapGet cexRemoved.index "a:table:1:x:table:1:x" = none := by
  refine ⟨?_, by decide, by decide⟩
  exact .removeApp _ (.indexApp _ _ _ (.indexApp _ _ _ .empty))

/-- C9 (amended): in every ObjectIndex state reachable by
`indexApp`/`removeApp`/`clear` with colon-free app ids and object names,
every object key in any bucket of the five secondary indices is a key of the
primary index map. -/
theorem no_dangling_secondary_keys {s : ObjectIndex}
    (hs : ObjectIndex.CleanReachable s) :
    ∀ idx ∈ [s.typeIndex, s.nameIndex, s.appIndex, s.keywordIndex, s.dependencyIndex],
      ∀ w k, k ∈ bucket idx w → ∃ e, mapGet s.index k = some e := by
  have h := cleanReachable_WF hs
  intro idx hidx w k hk
  simp only [List.mem_cons, List.mem_singleton] at hidx
  rcases hidx with rfl | rfl | rfl | rfl | rfl | hidx
  · rcases (h.rel_type w k).mp hk with ⟨e, he, _⟩
    exact ⟨e, he⟩
  · rcases (h.rel_name w k).mp hk with ⟨e, he, _⟩
    exact ⟨e, he⟩
  · rcases (h.rel_app w k).mp hk with ⟨e, he, _⟩
    exact ⟨e, he⟩
  · rcases (h.rel_kw w k).mp hk with ⟨e, he, _⟩
    exact ⟨e, he⟩
  · rcases (h.rel_dep w k).mp hk with ⟨e, he, _⟩
    exact ⟨e, he⟩
  · simp at hidx

/-- Witness for C9: the amended theorem applied to the concrete clean state
`wState`, its type index, and the key of the one indexed object. -/
theorem no_dangling_secondary_keys_witness :
    ∃ e, mapGet wState.index "a:table:1:x" = some e :=
  no_dangling_secondary_keys
    (.indexApp cexApp1 cexLoader2 0 .empty (by decide) (by decide))
    wState.typeIndex (List.mem_cons.mpr (Or.inl rfl)) "table" "a:table:1:x" (by decide)

/-! ## Claim C4 -/

/-- C4, counterexample: after `indexApp cexApp1; indexApp cexApp2;
removeApp cexApp2.id` the name-index bucket `x:table:1:x` still contains the
object key `createObjectKey cexApp2.id "table" 1 "x"` — a key belonging to
the removed container survives in a secondary index. -/
theorem removeApp_purge_counterexample :
    cexRemoved =
      ((ObjectIndex.empty.indexApp cexApp1 cexLoader1 0).indexApp cexApp2 cexLoader2 0).removeApp
        cexApp2.id ∧
      createObjectKey cexApp2.id "table" 1 "x" ∈ bucket cexRemoved.nameIndex "x:table:1:x" := by
  exact ⟨rfl, by decide⟩

/-- C4 (amended): starting from any state reachable with colon-free inputs,
after `indexApp` of a colon-free app followed by `removeApp` of its id, every
key in every bucket of the five secondary indices is a primary key of an
entry of a different app (no key belonging to the removed app survives), and
no empty bucket remains. -/
theorem removeApp_purges_secondary_indices {s : ObjectIndex}
    (hs : ObjectIndex.CleanReachable s) (app : BCAppInfo)
    (loader : String → String → List ObjectMetadataInput) (now : Nat)
    (hA : ColonFree app.id)
    (hL : ∀ t ∈ bcObjectTypes, ∀ m ∈ loader app.filePath t, ColonFree m.name) :
    (∀ idx ∈ [((s.indexApp app loader now).removeApp app.id).typeIndex,
        ((s.indexApp app loader now).removeApp app.id).nameIndex,
        ((s.indexApp app loader now).removeApp app.id).appIndex,
        ((s.indexApp app loader now).removeApp app.id).keywordIndex,
        ((s.indexApp app loader now).removeApp app.id).dependencyIndex],
      (∀ w k, k ∈ bucket idx w →
        ∃ e, mapGet ((s.indexApp app loader now).removeApp app.id).index k = some e ∧
          e.appId ≠ app.id) ∧
      (∀ w l, mapGet idx w = some l → l ≠ [])) := by
  have h2 : ObjectIndex.CleanReachable ((s.indexApp app loader now).removeApp app.id) :=
    .removeApp _ (.indexApp app loader now hs hA hL)
  have hWF := cleanReachable_WF h2
  have hWF1 : IndexWF (s.indexApp app loader now) :=
    indexApp_WF (cleanReachable_WF hs) hA hL
  have hno := removeApp_no_appId hWF1 app.id
  intro idx hidx
  constructor
  · intro w k hk
    rcases no_dangling_secondary_keys h2 idx hidx w k hk with ⟨e, he⟩
    exact ⟨e, he, hno k e he⟩
  · intro w l hl
    simp only [List.mem_cons, List.mem_singleton] at hidx
    rcases hidx with rfl | rfl | rfl | rfl | rfl | hidx
    · exact (hWF.ok_type w l hl).1
    · exact (hWF.ok_name w l hl).1
    · exact (hWF.ok_app w l hl).1
    · exact (hWF.ok_kw w l hl).1
    · exact (hWF.ok_dep w l hl).1
    · simp at hidx

/-- Witness for C4: index app `b`, then app `a`, remove `a`; the surviving
type-index member is `b`'s key and its entry does not belong to `a`. -/
theorem removeApp_purges_secondary_indices_witness :
    ∃ e, mapGet wRemovedState.index "b:table:2:y" = some e ∧ e.appId ≠ "a" := by
  have h := removeApp_purges_secondary_indices
    (.indexApp cexApp3 cexLoader3 0 .empty (by decide) (by decide))
    cexApp1 cexLoader2 0 (by decide) (by decide)
  exact (h wRemovedState.typeIndex (List.mem_cons.mpr (Or.inl rfl))).1 "table" "b:table:2:y"
    (by decide)

/-! ## Claim C2 -/

/-- C2, counterexample: querying the lazy cache's `getAppMetadata` with a
mismatching hash returns absence but leaves the cache state — including the
stale entry — completely unchanged, contradicting the claimed purge. -/
theorem stale_metadata_no_purge_counterexample :
    (c2Cache.getAppMetadata "p" "h2" 5).1 = none ∧
      (c2Cache.getAppMetadata "p" "h2" 5).2 = c2Cache ∧
      (mapGet c2Cache.cache "p").isSome = true :=
  ⟨rfl, rfl, rfl⟩

/-- C2 (amended): a stale lookup (TTL expiry or hash mismatch) returns
absence in both caches, but only `MemoryCache.get` removes the stale entry;
`LazyMemoryCache.getAppMetadata` leaves its state unchanged (stale entries
there are reclaimed only by `cleanup` or eviction). -/
theorem stale_lookup_purge_behavior :
    (∀ (c : MemoryCache) (fp h : String) (now : Nat) (entry : MCEntry),
      NodupKeys c.cache → mapGet c.cache fp = some entry →
      (now - entry.timestamp > c.maxAge ∨ entry.fileHash ≠ h) →
      (c.get fp h now).1 = none ∧ mapGet (c.get fp h now).2.cache fp = none) ∧
    (∀ (s : LazyMemoryCache) (fp h : String) (now : Nat) (entry : LazyAppEntry),
      mapGet s.cache fp = some entry → isEntryValid s.maxAge now entry h = false →
      (s.getAppMetadata fp h now).1 = none ∧ (s.getAppMetadata fp h now).2 = s) := by
  constructor
  · intro c fp h now entry hnodup hget hstale
    unfold MemoryCache.get
    rw [hget]
    dsimp only
    by_cases hexp : now - entry.timestamp > c.maxAge
    · rw [if_pos hexp]
      exact ⟨rfl, by rw [mapGet_mapDelete hnodup, if_pos rfl]⟩
    · have hhash : ¬ (entry.fileHash = h) := by
        rcases hstale with h1 | h1
        · exact absurd h1 hexp
        · exact h1
      rw [if_neg hexp, if_pos (by simpa using hhash)]
      exact ⟨rfl, by rw [mapGet_mapDelete hnodup, if_pos rfl]⟩
  · intro s fp h now entry hget hinvalid
    unfold LazyMemoryCache.getAppMetadata
    rw [hget]
    dsimp only
    rw [if_neg (by simp [hinvalid])]
    exact ⟨rfl, rfl⟩

/-- Witness for C2: the amended theorem applied to the concrete stale
lookups on `mcFixture` (hash mismatch, purged) and `c2Cache` (hash mismatch,
unchanged). -/
theorem stale_lookup_purge_behavior_witness :
    ((mcFixture.get "p" "h2" 5).1 = none ∧ mapGet (mcFixture.get "p" "h2" 5).2.cache "p" = none) ∧
      ((c2Cache.getAppMetadata "p" "h2" 5).1 = none ∧
        (c2Cache.getAppMetadata "p" "h2" 5).2 = c2Cache) :=
  ⟨stale_lookup_purge_behavior.1 mcFixture "p" "h2" 5 mcEntry (by decide) rfl
      (Or.inr (by decide)),
    stale_lookup_purge_behavior.2 c2Cache "p" "h2" 5 c2Entry rfl (by decide)⟩

/-! ## Claim C6 -/

/-- C6: building the metadata index over a malformed (unparseable) symbol
document does not raise (the model's `none` branch is the source's `catch`)
and degrades to the empty index: zero total objects, no per-category entries,
empty runtime version, nothing loaded. -/
theorem malformed_document_empty_index :
    (StreamingSymbolParser.init.parseSymbolsProgressive none).totalObjects = 0 ∧
      (StreamingSymbolParser.init.parseSymbolsProgressive none).objectIndex = [] ∧
      (StreamingSymbolParser.init.parseSymbolsProgressive none).runtimeVersion = "" ∧
      (StreamingSymbolParser.init.parseSymbolsProgressive none).loadedObjects = 0 :=
  ⟨rfl, rfl, rfl, rfl⟩

/-! ## Claim C5: idempotent materialization -/

/-- Values produced by a successful parser `loadObject` are JavaScript-truthy
(either the metadata record object or the placeholder empty object), so the
lazy cache's truthiness test recognises them as cached. -/
theorem spLoadObject_ok_truthy {p : StreamingSymbolParser} {t : String} {i : Int} {n : String}
    {v : JVal} {p2 : StreamingSymbolParser}
    (h : p.loadObject t i n = .ok (v, p2)) : jsTruthy v = true := by
  unfold StreamingSymbolParser.loadObject at h
  dsimp only at h
  rcases he : mapGet p.objectIndex (mkSPIndexKey t i n) with _ | m
  · rw [he] at h
    simp at h
  · rw [he] at h
    dsimp only at h
    by_cases hl : m.loaded
    · rw [if_pos hl] at h
      injection h with hpair
      have hv : v = metadataToJVal m := by
        have := congrArg Prod.fst hpair
        simpa using this.symm
      rw [hv]
      rfl
    · rw [if_neg hl] at h
      injection h with hpair
      have hv : v = parseObjectAtOffset m.offset m.size := by
        have := congrArg Prod.fst hpair
        simpa using this.symm
      rw [hv]
      rfl

/-- Case analysis of one `loadObject` call on a valid entry: a truthy cached
hit, a derive-and-cache miss, or a caught derivation failure, each with its
exact result state. -/
theorem loadObject_valid_cases (s : LazyMemoryCache) (fp h t : String) (i : Int) (n : String)
    (now : Nat) (entry : LazyAppEntry) (hentry : mapGet s.cache fp = some entry)
    (hv : isEntryValid s.maxAge now entry h = true) :
    (∃ v, mapGet entry.objectCache (mkSPIndexKey t i n) = some v ∧ jsTruthy v = true ∧
      s.loadObject fp h t i n now =
        (some v,
          { s with
            cache := mapSet s.cache fp ({ entry with lastAccessed := now }),
            hits := s.hits + 1 })) ∨
    (∃ v p2, entry.sparser.loadObject t i n = .ok (v, p2) ∧
      (mapGet entry.objectCache (mkSPIndexKey t i n) = none ∨
        ∃ v0, mapGet entry.objectCache (mkSPIndexKey t i n) = some v0 ∧ jsTruthy v0 = false) ∧
      s.loadObject fp h t i n now =
        (some v,
          { s with
            cache := mapSet s.cache fp
              ({ entry with
                 sparser := p2,
                 objectCache := mapSet entry.objectCache (mkSPIndexKey t i n) v,
                 lastAccessed := now }),
            misses := s.misses + 1 })) ∨
    (∃ err, entry.sparser.loadObject t i n = .error err ∧
      (mapGet entry.objectCache (mkSPIndexKey t i n) = none ∨
        ∃ v0, mapGet entry.objectCache (mkSPIndexKey t i n) = some v0 ∧ jsTruthy v0 = false) ∧
      s.loadObject fp h t i n now = (none, { s with misses := s.misses + 1 })) := by
  unfold LazyMemoryCache.loadObject LazyMemoryCache.loadObjectDerive
  rw [hentry]
  dsimp only
  rw [if_pos hv]
  rcases hc : mapGet entry.objectCache (mkSPIndexKey t i n) with _ | v0
  · dsimp only
    rcases hp : entry.sparser.loadObject t i n with err | vp
    · dsimp only
      exact Or.inr (Or.inr ⟨err, rfl, Or.inl rfl, rfl⟩)
    · obtain ⟨v, p2⟩ := vp
      dsimp only
      exact Or.inr (Or.inl ⟨v, p2, rfl, Or.inl rfl, rfl⟩)
  · dsimp only
    by_cases htr : jsTruthy v0 = true
    · rw [if_pos htr]
      exact Or.inl ⟨v0, rfl, htr, rfl⟩
    · rw [if_neg htr]
      have htr2 : jsTruthy v0 = false := by
        cases hx : jsTruthy v0
        · rfl
        · exact absurd hx htr
      rcases hp : entry.sparser.loadObject t i n with err | vp
      · dsimp only
        exact Or.inr (Or.inr ⟨err, rfl, Or.inr ⟨v0, rfl, htr2⟩, rfl⟩)
      · obtain ⟨v, p2⟩ := vp
        dsimp only
        exact Or.inr (Or.inl ⟨v, p2, rfl, Or.inr ⟨v0, rfl, htr2⟩, rfl⟩)

/-- C5: on a valid (unexpired, hash-matching) cached entry, calling the lazy
cache's `loadObject` twice with the same child key returns equal values, and
the second call leaves the entry's parser untouched — it is served from the
per-container materialized-object cache instead of re-deriving (the parser
state carries the derivation counter `loadedObjects`). -/
theorem loadObject_idempotent (s : LazyMemoryCache) (fp h t : String) (i : Int) (n : String)
    (now1 now2 : Nat) (entry : LazyAppEntry) (hentry : mapGet s.cache fp = some entry)
    (hv1 : isEntryValid s.maxAge now1 entry h = true)
    (hv2 : isEntryValid s.maxAge now2 entry h = true) :
    ((s.loadObject fp h t i n now1).2.loadObject fp h t i n now2).1 =
        (s.loadObject fp h t i n now1).1 ∧
      ∃ entry1, mapGet (s.loadObject fp h t i n now1).2.cache fp = some entry1 ∧
        ∃ entry2,
          mapGet ((s.loadObject fp h t i n now1).2.loadObject fp h t i n now2).2.cache fp =
              some entry2 ∧
            entry2.sparser = entry1.sparser := by
  rcases loadObject_valid_cases s fp h t i n now1 entry hentry hv1 with
    ⟨v, hc, htr, heq⟩ | ⟨v, p2, hok, _, heq⟩ | ⟨err, herr, hguard, heq⟩
  · -- call 1 was a cache hit
    rw [heq]
    dsimp only
    have hget1 : mapGet
        (mapSet s.cache fp ({ entry with lastAccessed := now1})) fp =
          some ({ entry with lastAccessed := now1 }) := by
      rw [mapGet_mapSet, if_pos rfl]
    rcases loadObject_valid_cases
        ({ s with
           cache := mapSet s.cache fp ({ entry with lastAccessed := now1 }),
           hits := s.hits + 1 })
        fp h t i n now2 ({ entry with lastAccessed := now1 }) hget1 hv2 with
      ⟨v2, hc2, _, heq2⟩ | ⟨v2, p2, _, hguard2, _⟩ | ⟨err2, _, hguard2, _⟩
    · rw [heq2]
      dsimp only
      have hv2v : v2 = v := by
        rw [show ({ entry with lastAccessed := now1 } : LazyAppEntry).objectCache =
            entry.objectCache from rfl] at hc2
        rw [hc] at hc2
        injection hc2 with hh
        exact hh.symm
      refine ⟨by rw [hv2v], { entry with lastAccessed := now1 }, hget1,
        ({ entry with lastAccessed := now2 }), ?_, rfl⟩
      rw [mapGet_mapSet, if_pos rfl]
    · exfalso
      rcases hguard2 with h1 | ⟨v0, h1, h2⟩
      · rw [show ({ entry with lastAccessed := now1 } : LazyAppEntry).objectCache =
            entry.objectCache from rfl, hc] at h1
        simp at h1
      · rw [show ({ entry with lastAccessed := now1 } : LazyAppEntry).objectCache =
            entry.objectCache from rfl, hc] at h1
        injection h1 with hh
        rw [← hh] at h2
        rw [htr] at h2
        simp at h2
    · exfalso
      rcases hguard2 with h1 | ⟨v0, h1, h2⟩
      · rw [show ({ entry with lastAccessed := now1 } : LazyAppEntry).objectCache =
            entry.objectCache from rfl, hc] at h1
        simp at h1
      · rw [show ({ entry with lastAccessed := now1 } : LazyAppEntry).objectCache =
            entry.objectCache from rfl, hc] at h1
        injection h1 with hh
        rw [← hh] at h2
        rw [htr] at h2
        simp at h2
  · -- call 1 derived and cached the object
    rw [heq]
    dsimp only
    have htr : jsTruthy v = true := spLoadObject_ok_truthy hok
    have hget1 : mapGet
        (mapSet s.cache fp
          ({ entry with
             sparser := p2,
             objectCache := mapSet entry.objectCache (mkSPIndexKey t i n) v,
             lastAccessed := now1 })) fp =
          some ({ entry with
             sparser := p2,
             objectCache := mapSet entry.objectCache (mkSPIndexKey t i n) v,
             lastAccessed := now1 }) := by
      rw [mapGet_mapSet, if_pos rfl]
    have hcache1 : mapGet
        ({ entry with
           sparser := p2,
           objectCache := mapSet entry.objectCache (mkSPIndexKey t i n) v,
           lastAccessed := now1 } : LazyAppEntry).objectCache (mkSPIndexKey t i n) = some v := by
      show mapGet (mapSet entry.objectCache (mkSPIndexKey t i n) v) (mkSPIndexKey t i n) = some v
      rw [mapGet_mapSet, if_pos rfl]
    rcases loadObject_valid_cases
        ({ s with
           cache := mapSet s.cache fp
             ({ entry with
                sparser := p2,
                objectCache := mapSet entry.objectCache (mkSPIndexKey t i n) v,
                lastAccessed := now1 }),
           misses := s.misses + 1 })
        fp h t i n now2
        ({ entry with
           sparser := p2,
           objectCache := mapSet entry.objectCache (mkSPIndexKey t i n) v,
           lastAccessed := now1 }) hget1 hv2 with
      ⟨v2, hc2, _, heq2⟩ | ⟨v2, q2, _, hguard2, _⟩ | ⟨err2, _, hguard2, _⟩
    · rw [heq2]
      dsimp only
      have hv2v : v2 = v := by
        rw [hcache1] at hc2
        injection hc2 with hh
        exact hh.symm
      refine ⟨by rw [hv2v], _, hget1,
        ({ entry with
           sparser := p2,
           objectCache := mapSet entry.objectCache (mkSPIndexKey t i n) v,
           lastAccessed := now2 }), ?_, rfl⟩
      rw [mapGet_mapSet, if_pos rfl]
    · exfalso
      rcases hguard2 with h1 | ⟨v0, h1, h2⟩
      · rw [hcache1] at h1
        simp at h1
      · rw [hcache1] at h1
        injection h1 with hh
        rw [← hh] at h2
        rw [htr] at h2
        simp at h2
    · exfalso
      rcases hguard2 with h1 | ⟨v0, h1, h2⟩
      · rw [hcache1] at h1
        simp at h1
      · rw [hcache1] at h1
        injection h1 with hh
        rw [← hh] at h2
        rw [htr] at h2
        simp at h2
  · -- call 1 failed to derive; the failure is deterministic
    rw [heq]
    dsimp only
    have hget1 : mapGet ({ s with misses := s.misses + 1 } : LazyMemoryCache).cache fp =
        some entry := hentry
    rcases loadObject_valid_cases ({ s with misses := s.misses + 1 }) fp h t i n now2 entry
        hget1 hv2 with
      ⟨v2, hc2, htr2, _⟩ | ⟨v2, q2, hok2, _, _⟩ | ⟨err2, _, _, heq2⟩
    · exfalso
      rcases hguard with h1 | ⟨v0, h1, h2⟩
      · rw [h1] at hc2
        simp at hc2
      · rw [h1] at hc2
        injection hc2 with hh
        rw [hh] at h2
        rw [htr2] at h2
        simp at h2
    · exfalso
      rw [herr] at hok2
      simp at hok2
    · rw [heq2]
      exact ⟨rfl, entry, hentry, entry, hentry, rfl⟩

/-- Witness for C5: the idempotence theorem applied to the concrete cache
`c5Cache` and the key `table:1:X`, at times 5 and 6 within the TTL. -/
theorem loadObject_idempotent_witness :
    ((c5Cache.loadObject "p" "h1" "table" 1 "X" 5).2.loadObject "p" "h1" "table" 1 "X" 6).1 =
      (c5Cache.loadObject "p" "h1" "table" 1 "X" 5).1 :=
  (loadObject_idempotent c5Cache "p" "h1" "table" 1 "X" 5 6 c5Entry rfl (by decide)
    (by decide)).1

/-! ## Claim C10 -/

/-- C10: on a valid entry, a `loadObject`/`loadObjectsByType` call whose key
is not yet in the per-entry object cache increments the miss counter and not
the hit counter — even when derivation succeeds; `getAppMetadata` never
touches either counter; and `getCacheStats().cacheHitRate` is determined by
these counters alone, so only repeat loads of already-cached keys count as
hits. -/
theorem cache_counters_spec :
    (∀ (s : LazyMemoryCache) (fp h t : String) (i : Int) (n : String) (now : Nat)
        (entry : LazyAppEntry),
      mapGet s.cache fp = some entry → isEntryValid s.maxAge now entry h = true →
      mapGet entry.objectCache (mkSPIndexKey t i n) = none →
      (s.loadObject fp h t i n now).2.misses = s.misses + 1 ∧
        (s.loadObject fp h t i n now).2.hits = s.hits) ∧
    (∀ (s : LazyMemoryCache) (fp h t : String) (now : Nat) (entry : LazyAppEntry)
        (v : JVal) (s2 : LazyMemoryCache),
      mapGet s.cache fp = some entry → isEntryValid s.maxAge now entry h = true →
      mapGet entry.objectCache (t ++ ":all") = none →
      s.loadObjectsByType fp h t now = .ok (v, s2) →
      s2.misses = s.misses + 1 ∧ s2.hits = s.hits) ∧
    (∀ (s : LazyMemoryCache) (fp h : String) (now : Nat),
      (s.getAppMetadata fp h now).2.hits = s.hits ∧
        (s.getAppMetadata fp h now).2.misses = s.misses) ∧
    (∀ (appSize : BCAppM → Nat) (cacheSize : JSMap JVal → Nat) (s : LazyMemoryCache),
      (LazyMemoryCache.getCacheStats appSize cacheSize s).cacheHitRateCenti =
        if s.hits + s.misses > 0 then jsRoundDiv (s.hits * 10000) (s.hits + s.misses) else 0) := by
  refine ⟨?_, ?_, ?_, ?_⟩
  · intro s fp h t i n now entry hget hv hnone
    rcases loadObject_valid_cases s fp h t i n now entry hget hv with
      ⟨v, hc, _, _⟩ | ⟨v, p2, _, _, heq⟩ | ⟨err, _, _, heq⟩
    · rw [hnone] at hc
      simp at hc
    · rw [heq]
      exact ⟨rfl, rfl⟩
    · rw [heq]
      exact ⟨rfl, rfl⟩
  · intro s fp h t now entry v s2 hget hv hnone hres
    unfold LazyMemoryCache.loadObjectsByType LazyMemoryCache.loadObjectsDerive at hres
    rw [hget] at hres
    dsimp only at hres
    rw [if_pos hv, hnone] at hres
    dsimp only at hres
    rcases hp : entry.sparser.loadObjectsByType t with err | op
    · rw [hp] at hres
      simp at hres
    · obtain ⟨objects, p2⟩ := op
      rw [hp] at hres
      dsimp only at hres
      injection hres with hpair
      have hs2 : s2 = { s with
          cache := mapSet s.cache fp
            ({ entry with
               sparser := p2,
               objectCache := mapSet entry.objectCache (t ++ ":all") (.arr objects),
               lastAccessed := now }),
          misses := s.misses + 1 } := by
        have := congrArg Prod.snd hpair
        simpa using this.symm
      rw [hs2]
      exact ⟨rfl, rfl⟩
  · intro s fp h now
    unfold LazyMemoryCache.getAppMetadata
    rcases hget : mapGet s.cache fp with _ | entry
    · exact ⟨rfl, rfl⟩
    · dsimp only
      by_cases hv : isEntryValid s.maxAge now entry h = true
      · rw [if_pos hv]
        exact ⟨rfl, rfl⟩
      · rw [if_neg hv]
        exact ⟨rfl, rfl⟩
  · intro appSize cacheSize s
    rfl

/-- Witness for C10: each part of the counter theorem applied to the concrete
caches `c5Cache` (a derive-success `loadObject`), `c2Cache` (a
derive-success `loadObjectsByType` and a metadata read), and a stats read. -/
theorem cache_counters_spec_witness :
    ((c5Cache.loadObject "p" "h1" "table" 1 "X" 5).2.misses = c5Cache.misses + 1 ∧
      (c5Cache.loadObject "p" "h1" "table" 1 "X" 5).2.hits = c5Cache.hits) ∧
    (c10ResState.misses = c2Cache.misses + 1 ∧ c10ResState.hits = c2Cache.hits) ∧
    ((c2Cache.getAppMetadata "p" "h1" 5).2.hits = c2Cache.hits ∧
      (c2Cache.getAppMetadata "p" "h1" 5).2.misses = c2Cache.misses) ∧
    ((LazyMemoryCache.getCacheStats (fun _ => 0) (fun _ => 0) c2Cache).cacheHitRateCenti =
      if c2Cache.hits + c2Cache.misses > 0 then
        jsRoundDiv (c2Cache.hits * 10000) (c2Cache.hits + c2Cache.misses)
      else 0) :=
  ⟨cache_counters_spec.1 c5Cache "p" "h1" "table" 1 "X" 5 c5Entry rfl (by decide) rfl,
    cache_counters_spec.2.1 c2Cache "p" "h1" "table" 5 c2Entry (.arr []) c10ResState rfl
      (by decide) rfl rfl,
    cache_counters_spec.2.2.1 c2Cache "p" "h1" 5,
    cache_counters_spec.2.2.2 (fun _ => 0) (fun _ => 0) c2Cache⟩

/-! ## Claim C3 -/

theorem findOldest_fold_some (l : JSMap LazyAppEntry) :
    ∀ (acc : Option String × Nat) (fp : String),
      (l.foldl
        (fun acc kv =>
          if kv.2.lastAccessed < acc.2 then (some kv.1, kv.2.lastAccessed) else acc)
        acc).1 = some fp →
      acc.1 = some fp ∨ fp ∈ mapKeys l := by
  induction l with
  | nil =>
    intro acc fp h
    exact Or.inl h
  | cons kv rest ih =>
    intro acc fp h
    simp only [List.foldl_cons] at h
    rcases ih _ fp h with h1 | h1
    · by_cases hlt : kv.2.lastAccessed < acc.2
      · rw [if_pos hlt] at h1
        right
        simp only [mapKeys, List.map_cons, List.mem_cons]
        exact Or.inl (Option.some.inj h1).symm
      · rw [if_neg hlt] at h1
        exact Or.inl h1
    · right
      simp only [mapKeys, List.map_cons, List.mem_cons]
      exact Or.inr (by simpa [mapKeys] using h1)

theorem findOldest_mem (now : Nat) (m : JSMap LazyAppEntry) (fp : String) :
    findOldest now m = some fp → fp ∈ mapKeys m := by
  intro h
  unfold findOldest at h
  rcases findOldest_fold_some m (none, now) fp h with h1 | h1
  · exact absurd h1 (by simp)
  · exact h1

theorem findOldest_fold_none (l : JSMap LazyAppEntry) :
    ∀ (acc : Option String × Nat),
      (l.foldl
        (fun acc kv =>
          if kv.2.lastAccessed < acc.2 then (some kv.1, kv.2.lastAccessed) else acc)
        acc).1 = none →
      acc.1 = none ∧ ∀ kv ∈ l, ¬ kv.2.lastAccessed < acc.2 := by
  induction l with
  | nil =>
    intro acc h
    exact ⟨h, by simp⟩
  | cons kv rest ih =>
    intro acc h
    simp only [List.foldl_cons] at h
    have hrest := ih _ h
    by_cases hlt : kv.2.lastAccessed < acc.2
    · rw [if_pos hlt] at hrest
      exact absurd hrest.1 (by simp)
    · rw [if_neg hlt] at hrest
      refine ⟨hrest.1, ?_⟩
      intro kv2 hmem
      rcases List.mem_cons.mp hmem with h2 | h2
      · subst h2
        exact hlt
      · exact hrest.2 kv2 h2

theorem findOldest_none (now : Nat) (m : JSMap LazyAppEntry) :
    findOldest now m = none → ∀ kv ∈ m, now ≤ kv.2.lastAccessed := by
  intro h kv hmem
  unfold findOldest at h
  exact Nat.not_lt.mp ((findOldest_fold_none m (none, now) h).2 kv hmem)

theorem length_mapDelete_lt {α : Type} (m : JSMap α) (k : String) :
    k ∈ mapKeys m → (mapDelete m k).length < m.length := by
  induction m with
  | nil =>
    intro h
    simp [mapKeys] at h
  | cons kv rest ih =>
    obtain ⟨k0, v0⟩ := kv
    intro h
    by_cases hk : k0 = k
    · simp only [mapDelete, if_pos hk, List.length_cons]
      exact Nat.lt_succ_self _
    · have hmem : k ∈ mapKeys rest := by
        simp only [mapKeys, List.map_cons, List.mem_cons] at h
        rcases h with h | h
        · exact absurd h.symm hk
        · simpa [mapKeys] using h
      simp only [mapDelete, if_neg hk, List.length_cons]
      exact Nat.succ_lt_succ (ih hmem)

/-- Postcondition of the LazyMemoryCache eviction loop with enough fuel:
either under budget, or every surviving entry was last accessed at or after
the loop's start time (no entry qualifies as an LRU victim — the safety
break fired). -/
theorem enforceLoop_post (appSize : BCAppM → Nat) (cacheSize : JSMap JVal → Nat) (now : Nat) :
    ∀ (fuel : Nat) (s : LazyMemoryCache), s.cache.length < fuel →
      LazyMemoryCache.memUsageCentiMB appSize cacheSize
          (LazyMemoryCache.enforceLoop appSize cacheSize now fuel s) ≤
        100 * (LazyMemoryCache.enforceLoop appSize cacheSize now fuel s).maxMemoryMB ∨
      ∀ kv ∈ (LazyMemoryCache.enforceLoop appSize cacheSize now fuel s).cache,
        now ≤ kv.2.lastAccessed := by
  intro fuel
  induction fuel with
  | zero =>
    intro s h
    exact absurd h (Nat.not_lt_zero _)
  | succ fuel ih =>
    intro s h
    simp only [LazyMemoryCache.enforceLoop]
    by_cases hover :
        LazyMemoryCache.memUsageCentiMB appSize cacheSize s > 100 * s.maxMemoryMB
    · rw [if_pos hover]
      rcases hfind : findOldest now s.cache with _ | fp
    -- (the `none` branch: the safety break keeps the state as-is)
      · dsimp only
        right
        exact findOldest_none now s.cache hfind
      · dsimp only
        have hlen : (mapDelete s.cache fp).length < fuel := by
          have := length_mapDelete_lt s.cache fp (findOldest_mem now s.cache fp hfind)
          omega
        exact ih { s with cache := mapDelete s.cache fp } hlen
    · rw [if_neg hover]
      exact Or.inl (Nat.not_lt.mp hover)

theorem mapKeys_mapDelete_sublist {α : Type} (m : JSMap α) (k : String) :
    (mapKeys (mapDelete m k)).Sublist (mapKeys m) := by
  induction m with
  | nil => simp [mapDelete, mapKeys]
  | cons kv rest ih =>
    obtain ⟨k0, v0⟩ := kv
    by_cases hk : k0 = k
    · simp only [mapDelete, if_pos hk, mapKeys, List.map_cons]
      exact List.sublist_cons_self _ _
    · simp only [mapDelete, if_neg hk, mapKeys, List.map_cons]
      exact List.Sublist.cons₂ _ ih

theorem not_mem_mapKeys_mapDelete {α : Type} (m : JSMap α) (k : String) :
    NodupKeys m → k ∉ mapKeys (mapDelete m k) := by
  induction m with
  | nil =>
    intro _ h
    simp [mapDelete, mapKeys] at h
  | cons kv rest ih =>
    obtain ⟨k0, v0⟩ := kv
    intro hnodup hmem
    have hnodup' : (mapKeys ((k0, v0) :: rest)).Nodup := hnodup
    simp only [mapKeys, List.map_cons, List.nodup_cons] at hnodup'
    by_cases hk : k0 = k
    · subst hk
      simp only [mapDelete, if_pos rfl] at hmem
      exact hnodup'.1 (by simpa [mapKeys] using hmem)
    · simp only [mapDelete, if_neg hk, mapKeys, List.map_cons, List.mem_cons] at hmem
      rcases hmem with h | h
      · exact hk h.symm
      · exact ih hnodup'.2 (by simpa [mapKeys] using h)

theorem mem_mapKeys_mapDelete {α : Type} (m : JSMap α) (k x : String) :
    x ∈ mapKeys (mapDelete m k) → x ∈ mapKeys m :=
  fun h => (mapKeys_mapDelete_sublist m k).subset h

/-- Postcondition of the shared evictLRU/evictLFU loop when the walked key
list covers every app key: either under budget, or the apps partition has
been emptied (object partitions are never victims of these strategies). -/
theorem evictLoopApps_post (dataSize : CacheData → Nat) :
    ∀ (ks : List String) (s : MemoryOptimizedCache), NodupKeys s.apps →
      (∀ x ∈ mapKeys s.apps, x ∈ ks) →
      (MemoryOptimizedCache.evictLoopApps dataSize s ks).totalCentiMB dataSize ≤
          100 * (MemoryOptimizedCache.evictLoopApps dataSize s ks).maxMemoryMB ∨
        (MemoryOptimizedCache.evictLoopApps dataSize s ks).apps = [] := by
  intro ks
  induction ks with
  | nil =>
    intro s hnodup hsub
    right
    simp only [MemoryOptimizedCache.evictLoopApps]
    have hkeys : mapKeys s.apps = [] :=
      List.eq_nil_iff_forall_not_mem.mpr (fun x hx => absurd (hsub x hx) (List.not_mem_nil x))
    exact List.map_eq_nil_iff.mp hkeys
  | cons k rest ih =>
    intro s hnodup hsub
    simp only [MemoryOptimizedCache.evictLoopApps]
    by_cases hle :
        (s.deleteApp k).totalCentiMB dataSize ≤ 100 * (s.deleteApp k).maxMemoryMB
    · rw [if_pos hle]
      exact Or.inl hle
    · rw [if_neg hle]
      refine ih (s.deleteApp k) (nodupKeys_mapDelete hnodup k) ?_
      intro x hx
      have hxm : x ∈ mapKeys s.apps := mem_mapKeys_mapDelete s.apps k x hx
      have hxk : x ≠ k := by
        intro hxeq
        subst hxeq
        exact not_mem_mapKeys_mapDelete s.apps x hnodup hx
      rcases List.mem_cons.mp (hsub x hxm) with h | h
      · exact absurd h hxk
      · exact h

/-- A single pass of `MemoryOptimizedCache.enforceMemoryLimits` under the
lru/lfu strategies ends under budget or with the apps partition empty. -/
theorem MOenforce_post (dataSize : CacheData → Nat) (s : MemoryOptimizedCache)
    (hstrat : s.evictionStrategy = .lru ∨ s.evictionStrategy = .lfu)
    (hnodup : NodupKeys s.apps) :
    (s.enforceMemoryLimits dataSize).totalCentiMB dataSize ≤
        100 * (s.enforceMemoryLimits dataSize).maxMemoryMB ∨
      (s.enforceMemoryLimits dataSize).apps = [] := by
  unfold MemoryOptimizedCache.enforceMemoryLimits
  by_cases hle : s.totalCentiMB dataSize ≤ 100 * s.maxMemoryMB
  · rw [if_pos hle]
    exact Or.inl hle
  · rw [if_neg hle]
    rcases hstrat with h | h
    · rw [h]
      unfold MemoryOptimizedCache.evictLRU
      refine evictLoopApps_post dataSize _ s hnodup ?_
      intro x hx
      exact ((List.perm_insertionSort _ s.apps).map Prod.fst).mem_iff.mpr hx
    · rw [h]
      unfold MemoryOptimizedCache.evictLFU
      refine evictLoopApps_post dataSize _ s hnodup ?_
      intro x hx
      exact ((List.perm_insertionSort _ s.apps).map Prod.fst).mem_iff.mpr hx

/-- C3, counterexample: after the second same-millisecond admission the
eviction loop's victim scan (strictly-less-than `Date.now()`) finds no
victim, so the loop stops with TWO entries still cached and the footprint
far above the zero-MB ceiling — refuting "≤ ceiling OR down to a single
entry". -/
theorem eviction_terminator_counterexample :
    cexLazyCache.cache.length = 2 ∧
      LazyMemoryCache.memUsageCentiMB cexAppSize cexCacheSize cexLazyCache >
        100 * cexLazyCache.maxMemoryMB :=
  ⟨rfl, by decide⟩

/-- C3 (amended): after a `setLazy` admission, either the footprint is under
the ceiling or every surviving entry has `lastAccessed ≥` the admission
time, i.e. no entry qualifies as an LRU victim (the safety break; the store
may hold arbitrarily many same-tick entries over budget, not just one); and
a `MemoryOptimizedCache` enforcement pass under the lru/lfu strategies ends
under the ceiling or with the whole apps partition evicted (object
partitions are not victims of these strategies). -/
theorem eviction_convergence_amended :
    (∀ (appSize : BCAppM → Nat) (cacheSize : JSMap JVal → Nat) (now : Nat)
        (s : LazyMemoryCache) (filePath : String) (app : BCAppM) (symbols : Option JVal)
        (symbolsLen : Nat),
      LazyMemoryCache.memUsageCentiMB appSize cacheSize
          (LazyMemoryCache.setLazy appSize cacheSize s filePath app symbols symbolsLen now) ≤
          100 * (LazyMemoryCache.setLazy appSize cacheSize s filePath app symbols symbolsLen
            now).maxMemoryMB ∨
        ∀ kv ∈ (LazyMemoryCache.setLazy appSize cacheSize s filePath app symbols symbolsLen
            now).cache, now ≤ kv.2.lastAccessed) ∧
    (∀ (dataSize : CacheData → Nat) (s : MemoryOptimizedCache),
      (s.evictionStrategy = .lru ∨ s.evictionStrategy = .lfu) → NodupKeys s.apps →
      (s.enforceMemoryLimits dataSize).totalCentiMB dataSize ≤
          100 * (s.enforceMemoryLimits dataSize).maxMemoryMB ∨
        (s.enforceMemoryLimits dataSize).apps = []) := by
  constructor
  · intro appSize cacheSize now s filePath app symbols symbolsLen
    simp only [LazyMemoryCache.setLazy, LazyMemoryCache.enforceMemoryLimits]
    exact enforceLoop_post appSize cacheSize now _ _ (Nat.lt_succ_self _)
  · intro dataSize s hstrat hnodup
    exact MOenforce_post dataSize s hstrat hnodup

/-- Witness for C3: the amended theorem applied to a concrete admission into
the empty zero-budget lazy cache and to an LRU enforcement pass on a
concrete partitioned cache. -/
theorem eviction_convergence_amended_witness :
    (LazyMemoryCache.memUsageCentiMB cexAppSize cexCacheSize
        (LazyMemoryCache.setLazy cexAppSize cexCacheSize emptyLazyCache "p1" c2App none 5 0) ≤
        100 * (LazyMemoryCache.setLazy cexAppSize cexCacheSize emptyLazyCache "p1" c2App none 5
          0).maxMemoryMB ∨
      ∀ kv ∈ (LazyMemoryCache.setLazy cexAppSize cexCacheSize emptyLazyCache "p1" c2App none 5
          0).cache, 0 ≤ kv.2.lastAccessed) ∧
    ((emptyMOCache.enforceMemoryLimits cexCacheSizeMO).totalCentiMB cexCacheSizeMO ≤
        100 * (emptyMOCache.enforceMemoryLimits cexCacheSizeMO).maxMemoryMB ∨
      (emptyMOCache.enforceMemoryLimits cexCacheSizeMO).apps = []) :=
  ⟨eviction_convergence_amended.1 cexAppSize cexCacheSize 0 emptyLazyCache "p1" c2App none 5,
    eviction_convergence_amended.2 cexCacheSizeMO emptyMOCache (Or.inl rfl) (by decide)⟩

/-! ## Claim C7 -/

theorem getPart_setPart_same (s : MemoryOptimizedCache) (p : PartId) (m : JSMap CacheData) :
    (s.setPart p m).getPart p = m := by
  cases p <;> rfl

theorem setPart_compressionEnabled (s : MemoryOptimizedCache) (p : PartId)
    (m : JSMap CacheData) :
    (s.setPart p m).compressionEnabled = s.compressionEnabled := by
  cases p <;> rfl

theorem setPart_evictionStrategy (s : MemoryOptimizedCache) (p : PartId)
    (m : JSMap CacheData) :
    (s.setPart p m).evictionStrategy = s.evictionStrategy := by
  cases p <;> rfl

/-- The evictLRU/evictLFU loop only deletes app entries: every object
partition and the compression flag survive unchanged. -/
theorem evictLoopApps_preserves (dataSize : CacheData → Nat) :
    ∀ (ks : List String) (s : MemoryOptimizedCache) (p : PartId),
      (MemoryOptimizedCache.evictLoopApps dataSize s ks).getPart p = s.getPart p ∧
        (MemoryOptimizedCache.evictLoopApps dataSize s ks).compressionEnabled =
          s.compressionEnabled := by
  intro ks
  induction ks with
  | nil =>
    intro s p
    exact ⟨rfl, rfl⟩
  | cons k rest ih =>
    intro s p
    simp only [MemoryOptimizedCache.evictLoopApps]
    by_cases hle :
        (s.deleteApp k).totalCentiMB dataSize ≤ 100 * (s.deleteApp k).maxMemoryMB
    · rw [if_pos hle]
      exact ⟨by cases p <;> rfl, rfl⟩
    · rw [if_neg hle]
      have hrest := ih (s.deleteApp k) p
      exact ⟨by rw [hrest.1]; cases p <;> rfl, hrest.2⟩

/-- An enforcement pass under lru/lfu leaves every object partition and the
compression flag unchanged. -/
theorem MOenforce_preserves (dataSize : CacheData → Nat) (s : MemoryOptimizedCache)
    (hstrat : s.evictionStrategy = .lru ∨ s.evictionStrategy = .lfu) (p : PartId) :
    (s.enforceMemoryLimits dataSize).getPart p = s.getPart p ∧
      (s.enforceMemoryLimits dataSize).compressionEnabled = s.compressionEnabled := by
  unfold MemoryOptimizedCache.enforceMemoryLimits
  by_cases hle : s.totalCentiMB dataSize ≤ 100 * s.maxMemoryMB
  · rw [if_pos hle]
    exact ⟨rfl, rfl⟩
  · rw [if_neg hle]
    rcases hstrat with h | h
    · rw [h]
      exact evictLoopApps_preserves dataSize _ s p
    · rw [h]
      exact evictLoopApps_preserves dataSize _ s p

set_option maxRecDepth 4000 in
/-- What `getObjects` after `setObjects` actually returns under the lru/lfu
strategies: the OPTIMIZED payload — the compression wrapper is exactly
reversed, but `optimizeObjectsData` is applied unconditionally first. -/
theorem setObjects_getObjects_opt (dataSize : CacheData → Nat) (s : MemoryOptimizedCache)
    (appId objectType : String) (objects : List JObj)
    (hstrat : s.evictionStrategy = .lru ∨ s.evictionStrategy = .lfu) :
    (MemoryOptimizedCache.setObjects dataSize s appId objectType objects).getObjects
        appId objectType = some (optimizeObjectsData objects) := by
  simp only [MemoryOptimizedCache.setObjects, MemoryOptimizedCache.getObjects]
  have hpres := MOenforce_preserves dataSize
    (s.setPart (getPartitionForType objectType)
      (mapSet (s.getPart (getPartitionForType objectType)) (appId ++ ":" ++ objectType)
        (if s.compressionEnabled then compressData (optimizeObjectsData objects)
         else CacheData.plain (optimizeObjectsData objects))))
    (by rw [setPart_evictionStrategy]; exact hstrat) (getPartitionForType objectType)
  rw [hpres.1, getPart_setPart_same, mapGet_mapSet, if_pos rfl]
  dsimp only
  simp only [hpres.2, setPart_compressionEnabled]
  by_cases hc : s.compressionEnabled
  · simp [hc, compressData, isCompressed, decompressData]
  · simp [hc, CacheData.payload]

/-- C7, counterexample: storing an object with an (empty-array) field and
reading it back yields the object with the field REMOVED — the stored
payload does not round-trip unchanged, because `setObjects` applies the
lossy `optimizeObjectsData` before (optional) compression. -/
theorem compression_roundtrip_counterexample :
    (MemoryOptimizedCache.setObjects cexCacheSizeMO emptyMOCache "app" "table" c7Objs).getObjects
        "app" "table" = some [[]] ∧ ([[]] : List JObj) ≠ c7Objs := by
  constructor
  · rw [setObjects_getObjects_opt cexCacheSizeMO emptyMOCache "app" "table" c7Objs (Or.inl rfl)]
    simp [c7Objs, optimizeObjectsData, optimizeFields]
  · simp [c7Objs]

/-- C7 (amended): under the lru/lfu eviction strategies, `getObjects` after
`setObjects` for the same (appId, objectType) key returns
`optimizeObjectsData objects`: the optional compression transform is exactly
reversed on read, but the unconditional optimization pass is lossy (it drops
null fields, empty arrays and nested objects that become empty), so the
payload round-trips only up to optimization. -/
theorem setObjects_getObjects_roundtrip (dataSize : CacheData → Nat)
    (s : MemoryOptimizedCache) (appId objectType : String) (objects : List JObj)
    (hstrat : s.evictionStrategy = .lru ∨ s.evictionStrategy = .lfu) :
    (MemoryOptimizedCache.setObjects dataSize s appId objectType objects).getObjects
        appId objectType = some (optimizeObjectsData objects) :=
  setObjects_getObjects_opt dataSize s appId objectType objects hstrat

/-- Witness for C7: the amended round-trip theorem applied to a concrete
store-then-read of an empty object list on the LRU-configured cache. -/
theorem setObjects_getObjects_roundtrip_witness :
    (MemoryOptimizedCache.setObjects cexCacheSizeMO emptyMOCache "a" "codeunit" []).getObjects
        "a" "codeunit" = some (optimizeObjectsData []) :=
  setObjects_getObjects_roundtrip cexCacheSizeMO emptyMOCache "a" "codeunit" [] (Or.inl rfl)

/-- The batch loop schedules every chunk of its object list and never reads
the task registry. -/
theorem loadObjectBatches_fold (chunks : List (List SPObjectMetadata)) :
    ∀ (acc : Nat × ProgressiveAppLoader),
      (chunks.foldl
        (fun acc batch =>
          (acc.1 + batch.length,
           { acc.2 with scheduledBatches := acc.2.scheduledBatches ++ [batch] }))
        acc).2.scheduledBatches = acc.2.scheduledBatches ++ chunks ∧
      (chunks.foldl
        (fun acc batch =>
          (acc.1 + batch.length,
           { acc.2 with scheduledBatches := acc.2.scheduledBatches ++ [batch] }))
        acc).2.loadingTasks = acc.2.loadingTasks := by
  induction chunks with
  | nil =>
    intro acc
    exact ⟨(List.append_nil _).symm, rfl⟩
  | cons c rest ih =>
    intro acc
    simp only [List.foldl_cons]
    have hrest := ih
      (acc.1 + c.length, { acc.2 with scheduledBatches := acc.2.scheduledBatches ++ [c] })
    refine ⟨?_, hrest.2⟩
    rw [hrest.1]
    simp [List.append_assoc]

/-- C8, counterexample: cancelling the only registered task returns true
(the id is removed from the registry), yet a subsequent run of the batch
loop on the remaining objects still schedules BOTH batches — cancellation
does not prevent any future batch. -/
theorem cancel_then_batch_counterexample :
    (c8Loader.cancelBackgroundLoading "bg-1").1 = true ∧
      ((c8Loader.cancelBackgroundLoading "bg-1").2.loadObjectBatches [c8Meta1, c8Meta2] 1
          0).2.scheduledBatches = [[c8Meta1], [c8Meta2]] :=
  ⟨rfl, rfl⟩

/-- C8 (amended): `cancelBackgroundLoading` only updates the registry — it
returns true exactly when the task id was registered, removes it, and
changes nothing else; it returns false on an unknown id and leaves the state
unchanged; and the batch loop never consults the registry: it schedules
every chunk of its object list (and leaves the registry alone), so
cancellation prevents no batch of an already-running loop. -/
theorem cancel_registry_only :
    (∀ (s : ProgressiveAppLoader) (taskId : String),
      taskId ∈ s.loadingTasks →
      (s.cancelBackgroundLoading taskId).1 = true ∧
        (s.cancelBackgroundLoading taskId).2.loadingTasks = s.loadingTasks.erase taskId ∧
        (s.cancelBackgroundLoading taskId).2.scheduledBatches = s.scheduledBatches) ∧
    (∀ (s : ProgressiveAppLoader) (taskId : String),
      taskId ∉ s.loadingTasks →
      (s.cancelBackgroundLoading taskId).1 = false ∧
        (s.cancelBackgroundLoading taskId).2 = s) ∧
    (∀ (s : ProgressiveAppLoader) (objects : List SPObjectMetadata)
        (batchSize initial : Nat),
      (s.loadObjectBatches objects batchSize initial).2.scheduledBatches =
          s.scheduledBatches ++ listChunks batchSize objects ∧
        (s.loadObjectBatches objects batchSize initial).2.loadingTasks = s.loadingTasks) := by
  refine ⟨?_, ?_, ?_⟩
  · intro s taskId hmem
    unfold ProgressiveAppLoader.cancelBackgroundLoading
    rw [if_pos hmem]
    exact ⟨rfl, rfl, rfl⟩
  · intro s taskId hmem
    unfold ProgressiveAppLoader.cancelBackgroundLoading
    rw [if_neg hmem]
    exact ⟨rfl, rfl⟩
  · intro s objects batchSize initial
    unfold ProgressiveAppLoader.loadObjectBatches
    exact loadObjectBatches_fold (listChunks batchSize objects) (initial, s)

/-- Witness for C8: the amended theorem applied to the concrete loader — a
successful cancellation of `bg-1`, a failed cancellation of `bg-2`, and a
batch-loop run scheduling both singleton chunks. -/
theorem cancel_registry_only_witness :
    ((c8Loader.cancelBackgroundLoading "bg-1").1 = true ∧
      (c8Loader.cancelBackgroundLoading "bg-1").2.loadingTasks =
        (["bg-1"] : List String).erase "bg-1" ∧
      (c8Loader.cancelBackgroundLoading "bg-1").2.scheduledBatches =
        c8Loader.scheduledBatches) ∧
    ((c8Loader.cancelBackgroundLoading "bg-2").1 = false ∧
      (c8Loader.cancelBackgroundLoading "bg-2").2 = c8Loader) ∧
    ((c8Loader.loadObjectBatches [c8Meta1, c8Meta2] 1 0).2.scheduledBatches =
        c8Loader.scheduledBatches ++ listChunks 1 [c8Meta1, c8Meta2] ∧
      (c8Loader.loadObjectBatches [c8Meta1, c8Meta2] 1 0).2.loadingTasks =
        c8Loader.loadingTasks) :=
  ⟨cancel_registry_only.1 c8Loader "bg-1" (by decide),
    cancel_registry_only.2.1 c8Loader "bg-2" (by decide),
    cancel_registry_only.2.2 c8Loader [c8Meta1, c8Meta2] 1 0⟩

end BCS
